import Mathlib

/-
Verification development for `src/myhashtable/HashTable.h` (repository
VerrPower/f1nance_yp): an open-addressing hash table with a sparse index
table and a dense, insertion-ordered entry store.

The repository contains only the interface header `HashTable.h` (constants,
field and method declarations); the implementation file `HashTable.tpp` it
includes is not part of the repository.  The constants, field names and
signatures below are taken from the header; the operation bodies are
modelled from the specification (spec.md §4), as noted on each definition.

Modelling conventions:
- C++ machine integers become `Nat`/`Int` (all quantities involved are
  small and non-negative in every reachable state; index-table slots are
  `Int` because the header's sentinels `UNVISITED_BIT = -1` and
  `DELETED_BIT = -2` are negative).
- The unbounded probe loop of the spec is given explicit fuel; `none`
  models a non-terminating (or stuck) execution.
- Statefulness is explicit state passing: mutating operations return the
  new table.
-/

set_option maxHeartbeats 1000000
set_option linter.unusedSectionVars false
set_option linter.deprecated false

namespace MyHashtable

/-- Constant from `HashTable.h` line 17: `static constexpr int MIN_CAPACITY = 8`. -/
def MIN_CAPACITY : Nat := 8

/-- Constant from `HashTable.h` line 18: `static constexpr int DELETED_BIT = -2`. -/
def DELETED_BIT : Int := -2

/-- Constant from `HashTable.h` line 19: `static constexpr int UNVISITED_BIT = -1`. -/
def UNVISITED_BIT : Int := -1

/-- Constant from `HashTable.h` line 20: `MAX_LOAD_FACTOR = 2.0 / 3.0` (as an exact rational). -/
def MAX_LOAD_FACTOR : ℚ := 2 / 3

/-- Constant from `HashTable.h` line 21: `MIN_LOAD_FACTOR = 1.0 / 6.0` (as an exact rational). -/
def MIN_LOAD_FACTOR : ℚ := 1 / 6

/-- Constant from `HashTable.h` line 22: `static constexpr int PERTURB_SHIFT = 5`. -/
def PERTURB_SHIFT : Nat := 5

/-- Entry record from `HashTable.h` lines 10-14: cached `hash_value`, `key`, `value`. -/
structure Entry (K V : Type) where
  hash_value : Nat
  key : K
  value : V
deriving DecidableEq

/-- Table state from `HashTable.h` lines 28-31: `indices` (index table),
`entries` (entry store, dead slots modelled as `none`), `capacity`,
`num_entry`, `num_active_entry`, `expand_threshold`, `shrink_threshold`. -/
structure HashTable (K V : Type) where
  indices : List Int
  entries : List (Option (Entry K V))
  capacity : Nat
  num_entry : Nat
  num_active_entry : Nat
  expand_threshold : Nat
  shrink_threshold : Nat
deriving DecidableEq

variable {K V : Type} [DecidableEq K]

/-- Modelled from the spec: a fresh table of capacity `c` (`HashTable.tpp` is
missing): all index slots `UNVISITED`, empty entry store, zero counters.  The
stored thresholds are the integer forms of the load-factor checks:
`num_active_entry ≥ expand_threshold` iff `num_active_entry/capacity ≥ 2/3`,
and `num_active_entry ≤ shrink_threshold` iff `num_active_entry/capacity ≤ 1/6`. -/
def freshTable (K V : Type) (c : Nat) : HashTable K V :=
  ⟨List.replicate c UNVISITED_BIT, [], c, 0, 0, (2 * c + 2) / 3, c / 6⟩

/-- Modelled from the spec: the default constructor `HashTable()` creates the
table empty at minimum capacity (spec §3 lifecycle). -/
def HashTable.emptyTable (K V : Type) : HashTable K V := freshTable K V MIN_CAPACITY

/-- Closed form of the probe sequence of spec §4.1: position `i` of the
probe walk for hash `h` in a table of capacity `cap`.  Step 0 is
`h mod cap`; step `i+1` is `(5*current + 1 + perturb) mod cap` where
`perturb` is `h` right-shifted `PERTURB_SHIFT` bits per completed step. -/
def probeIdx (cap h : Nat) : Nat → Nat
  | 0 => h % cap
  | i + 1 => (5 * probeIdx cap h i + 1 + h >>> (PERTURB_SHIFT * i)) % cap

/-- Outcome of a terminating probe: either the key was found (at index-table
slot `slot`, whose entry-store position is `pos`), or the key is absent and
`slot` is the slot an insertion would use. -/
inductive ProbeOutcome where
  | found (slot pos : Nat)
  | vacant (slot : Nat)
deriving DecidableEq

/-- Modelled from the spec (§4.1, `HashTable.tpp` missing): the probe loop.
Maintains the current slot `cur` and the `perturb` variable (initialised to
the hash, shifted right by `PERTURB_SHIFT` per step), stops at an
`UNVISITED` slot (miss) or at a slot whose entry's cached hash and key both
match (hit), skips `DELETED` slots while remembering the earliest one as the
insertion point (`fd`).  `fuel` bounds the number of iterations; `none`
models divergence (and stuck states impossible in well-formed tables). -/
def probeLoop (t : HashTable K V) (k : K) (h : Nat) :
    Nat → Nat → Nat → Option Nat → Option ProbeOutcome
  | 0, _, _, _ => none
  | fuel + 1, cur, perturb, fd =>
    match t.indices.get? cur with
    | none => none
    | some s =>
      if s = UNVISITED_BIT then some (.vacant (fd.getD cur))
      else if s = DELETED_BIT then
        probeLoop t k h fuel ((5 * cur + 1 + perturb) % t.capacity)
          (perturb >>> PERTURB_SHIFT) (some (fd.getD cur))
      else if s < 0 then none
      else
        match t.entries.get? s.toNat with
        | some (some e) =>
          if e.hash_value = h ∧ e.key = k then some (.found cur s.toNat)
          else probeLoop t k h fuel ((5 * cur + 1 + perturb) % t.capacity)
            (perturb >>> PERTURB_SHIFT) fd
        | _ => none

/-- The probe loop re-expressed over the step counter `i` of the closed-form
sequence `probeIdx`, used to reason about the walk. -/
def probeFrom (t : HashTable K V) (k : K) (h : Nat) :
    Nat → Nat → Option Nat → Option ProbeOutcome
  | 0, _, _ => none
  | fuel + 1, i, fd =>
    match t.indices.get? (probeIdx t.capacity h i) with
    | none => none
    | some s =>
      if s = UNVISITED_BIT then some (.vacant (fd.getD (probeIdx t.capacity h i)))
      else if s = DELETED_BIT then
        probeFrom t k h fuel (i + 1) (some (fd.getD (probeIdx t.capacity h i)))
      else if s < 0 then none
      else
        match t.entries.get? s.toNat with
        | some (some e) =>
          if e.hash_value = h ∧ e.key = k then some (.found (probeIdx t.capacity h i) s.toNat)
          else probeFrom t k h fuel (i + 1) fd
        | _ => none

/-- Modelled from the spec (§4.1): every public operation probes starting at
`hash mod capacity` with `perturb` initialised to the full hash. -/
def probe (fuel : Nat) (t : HashTable K V) (k : K) (h : Nat) : Option ProbeOutcome :=
  probeLoop t k h fuel (h % t.capacity) h none

/-- Modelled from the spec (§4.2): overwrite the value of the entry at
entry-store position `p` in place, leaving hash and key untouched. -/
def setValue (l : List (Option (Entry K V))) (p : Nat) (v : V) : List (Option (Entry K V)) :=
  match l.get? p with
  | some (some e) => l.set p (some { e with value := v })
  | _ => l

/-- Modelled from the spec (§4.2): append a new entry at position
`num_entry` of the entry store and write that position into index slot `w`
(the slot found by probing, whether it was `UNVISITED` or `DELETED`). -/
def insertFreshAt (t : HashTable K V) (e : Entry K V) (w : Nat) : HashTable K V :=
  { t with indices := t.indices.set w (Int.ofNat t.num_entry),
           entries := t.entries ++ [some e],
           num_entry := t.num_entry + 1,
           num_active_entry := t.num_active_entry + 1 }

/-- The live (non-tombstoned) entries of the store, in insertion order. -/
def liveEntries (t : HashTable K V) : List (Entry K V) := t.entries.filterMap id

/-- The keys of the live entries, in insertion order. -/
def liveKeys (t : HashTable K V) : List K := (liveEntries t).map Entry.key

/-- Modelled from the spec (§4.7, `operator<<` of `HashTable.h` lines 43-44):
the textual dump enumerates the entry store in insertion order, skipping
dead slots, rendering key/value pairs. -/
def display (t : HashTable K V) : List (K × V) :=
  (liveEntries t).map fun e => (e.key, e.value)

/-- The value currently stored for key `k` (first live entry with that key). -/
def storedValue (t : HashTable K V) (k : K) : Option V :=
  ((liveEntries t).find? fun e => decide (e.key = k)).map Entry.value

/-- Modelled from the spec (§4.6): `size()` returns `num_active_entry`. -/
def HashTable.size (t : HashTable K V) : Nat := t.num_active_entry

/-- Modelled from the spec (§4.5): rebuild step.  Re-insert the given live
entries, in order, into the accumulator table: probe with the entry's cached
`hash_value` (not recomputed), append to the new entry store, index the new
slot.  A `found` outcome cannot occur for distinct keys; it is modelled as a
stuck state. -/
def reindex (fuel : Nat) : HashTable K V → List (Entry K V) → Option (HashTable K V)
  | t, [] => some t
  | t, e :: es =>
    match probe fuel t e.key e.hash_value with
    | some (.vacant w) => reindex fuel (insertFreshAt t e w) es
    | _ => none

/-- Modelled from the spec (§4.5, `HashTable::resize_to` of `HashTable.h`
line 26): clamp the requested capacity to at least `MIN_CAPACITY`, allocate
fresh arrays, and re-insert the old live entries in insertion order. -/
def resize_to (fuel : Nat) (t : HashTable K V) (new_cap : Nat) : Option (HashTable K V) :=
  reindex fuel (freshTable K V (max MIN_CAPACITY new_cap)) (liveEntries t)

/-- Modelled from the spec (§4.2/§4.5, `HashTable::ensure_capacity` of
`HashTable.h` line 25): after an insertion, grow (roughly double) and
rebuild when the load factor reaches `MAX_LOAD_FACTOR`. -/
def ensure_capacity (fuel : Nat) (t : HashTable K V) : Option (HashTable K V) :=
  if t.expand_threshold ≤ t.num_active_entry then resize_to fuel t (t.capacity * 2)
  else some t

/-- Modelled from the spec (§4.2, `HashTable::insert` of `HashTable.h` line
36): probe; on a hit overwrite the value in place (counters unchanged);
otherwise append a fresh entry, index it at the probed slot, and check the
expand threshold. -/
def HashTable.insert (hash : K → Nat) (fuel : Nat) (t : HashTable K V) (k : K) (v : V) :
    Option (HashTable K V) :=
  match probe fuel t k (hash k) with
  | none => none
  | some (.found _ p) => some { t with entries := setValue t.entries p v }
  | some (.vacant w) => ensure_capacity fuel (insertFreshAt t ⟨hash k, k, v⟩ w)

/-- Modelled from the spec (§4.3, `HashTable::contains` of `HashTable.h`
line 37): pure probe-and-compare, returning whether the key was found. -/
def HashTable.contains (hash : K → Nat) (fuel : Nat) (t : HashTable K V) (k : K) :
    Option Bool :=
  (probe fuel t k (hash k)).map fun o =>
    match o with
    | .found _ _ => true
    | .vacant _ => false

/-- Modelled from the spec (§4.3, `HashTable::get` of `HashTable.h` line 39,
return type `V*`): pure probe-and-compare; `some v` models a non-null
pointer to the stored value, `none` models the null pointer. -/
def HashTable.get (hash : K → Nat) (fuel : Nat) (t : HashTable K V) (k : K) :
    Option (Option V) :=
  match probe fuel t k (hash k) with
  | none => none
  | some (.vacant _) => some none
  | some (.found _ p) => some (((t.entries.get? p).bind id).map Entry.value)

/-- Error raised by `pop` on an absent key (spec §4.4/§7). -/
inductive TableError where
  | KeyNotFound
deriving DecidableEq

/-- Modelled from the spec (§4.4, `HashTable::pop` of `HashTable.h` line 38):
probe; if absent fail with `KeyNotFound` leaving the table intact; if found,
mark the index slot `DELETED`, mark the entry-store slot dead (no shifting),
decrement `num_active_entry`, return the stored value, then check the shrink
threshold (only when the capacity is above the minimum floor). -/
def HashTable.pop (hash : K → Nat) (fuel : Nat) (t : HashTable K V) (k : K) :
    Option (Except TableError V × HashTable K V) :=
  match probe fuel t k (hash k) with
  | none => none
  | some (.vacant _) => some (.error .KeyNotFound, t)
  | some (.found s p) =>
    match t.entries.get? p with
    | some (some e) =>
      let t1 : HashTable K V :=
        { t with indices := t.indices.set s DELETED_BIT,
                 entries := t.entries.set p none,
                 num_active_entry := t.num_active_entry - 1 }
      (if t1.num_active_entry ≤ t1.shrink_threshold ∧ MIN_CAPACITY < t1.capacity
        then resize_to fuel t1 (t1.capacity / 2) else some t1).map fun t2 => (.ok e.value, t2)
    | _ => none

/-- A client operation, for reasoning about sequences of calls (spec §8). -/
inductive Op (K V : Type) where
  | ins (k : K) (v : V)
  | del (k : K)
  | qcontains (k : K)
  | qget (k : K)

/-- Run a sequence of operations.  A failed `pop` (KeyNotFound) leaves the
table usable (spec §7); queries do not change the state (spec §4.3);
`none` propagates divergence. -/
def runOps (hash : K → Nat) (fuel : Nat) :
    HashTable K V → List (Op K V) → Option (HashTable K V)
  | t, [] => some t
  | t, .ins k v :: ops =>
    match t.insert hash fuel k v with
    | some t' => runOps hash fuel t' ops
    | none => none
  | t, .del k :: ops =>
    match t.pop hash fuel k with
    | some (_, t') => runOps hash fuel t' ops
    | none => none
  | t, .qcontains k :: ops =>
    match t.contains hash fuel k with
    | some _ => runOps hash fuel t ops
    | none => none
  | t, .qget k :: ops =>
    match t.get hash fuel k with
    | some _ => runOps hash fuel t ops
    | none => none

/-- Abstract effect of an operation sequence on the set of present keys:
`insert` adds the key, `pop` removes it (removing an absent key is a no-op,
matching the failed `pop` leaving the table unchanged), queries do nothing. -/
def opsFold : List (Op K V) → Finset K → Finset K
  | [], A => A
  | .ins k _ :: ops, A => opsFold ops (insert k A)
  | .del k :: ops, A => opsFold ops (A.erase k)
  | .qcontains _ :: ops, A => opsFold ops A
  | .qget _ :: ops, A => opsFold ops A

/-- Step `j` of the probe walk for `(k, h)` continues: the slot holds
`DELETED`, or it holds a live entry whose cached hash or key fails to match. -/
def probeCont (t : HashTable K V) (k : K) (h j : Nat) : Prop :=
  t.indices.get? (probeIdx t.capacity h j) = some DELETED_BIT ∨
  ∃ p e, t.indices.get? (probeIdx t.capacity h j) = some (Int.ofNat p) ∧
    t.entries.get? p = some (some e) ∧ ¬(e.hash_value = h ∧ e.key = k)

/-- Step `i` of the probe walk for `(k, h)` is a hit at entry position `p`. -/
def probeHit (t : HashTable K V) (k : K) (h i p : Nat) : Prop :=
  ∃ e, t.indices.get? (probeIdx t.capacity h i) = some (Int.ofNat p) ∧
    t.entries.get? p = some (some e) ∧ e.hash_value = h ∧ e.key = k

/-- The probe walk for `(k, h)` first stops at step `i`, a hit at `p`. -/
def FindsAt (t : HashTable K V) (k : K) (h i p : Nat) : Prop :=
  probeHit t k h i p ∧ ∀ j, j < i → probeCont t k h j

/-- Every live entry is reachable by probing with its key and cached hash. -/
def Findable (t : HashTable K V) : Prop :=
  ∀ p e, t.entries.get? p = some (some e) → ∃ i, FindsAt t e.key e.hash_value i p

/-- Well-formedness invariant of a reachable table (spec §3): array lengths
match the counters, thresholds are the integer forms of the load-factor
bounds, every index slot is a sentinel or points at a live entry,
occupied slots are injective, cached hashes are consistent, live keys are
pairwise distinct, and every live entry can be found by probing. -/
structure WF (hash : K → Nat) (t : HashTable K V) : Prop where
  cap_min : MIN_CAPACITY ≤ t.capacity
  idx_len : t.indices.length = t.capacity
  ent_len : t.entries.length = t.num_entry
  active_eq : t.num_active_entry = (liveEntries t).length
  exp_thr : t.expand_threshold = (2 * t.capacity + 2) / 3
  shr_thr : t.shrink_threshold = t.capacity / 6
  slots : ∀ i s, t.indices.get? i = some s →
    s = UNVISITED_BIT ∨ s = DELETED_BIT ∨
      ∃ p e, s = Int.ofNat p ∧ t.entries.get? p = some (some e)
  inj : ∀ i j p, t.indices.get? i = some (Int.ofNat p) →
    t.indices.get? j = some (Int.ofNat p) → i = j
  hash_ok : ∀ e ∈ liveEntries t, e.hash_value = hash e.key
  keys_nodup : (liveKeys t).Nodup
  findable : Findable t

/-- Strict integer load-factor invariant maintained between operations:
above the minimum capacity the ratio is strictly above `1/6`, and it is
always strictly below `2/3`. -/
def LoadStrict (t : HashTable K V) : Prop :=
  (MIN_CAPACITY < t.capacity → t.capacity < 6 * t.num_active_entry) ∧
  3 * t.num_active_entry < 2 * t.capacity

/-- The load-factor condition of spec §8: the ratio lies within
`[MIN_LOAD_FACTOR, MAX_LOAD_FACTOR]`, except (transiently) at minimum
capacity. -/
def LoadOK (t : HashTable K V) : Prop :=
  t.capacity = MIN_CAPACITY ∨
    (MIN_LOAD_FACTOR ≤ (t.num_active_entry : ℚ) / (t.capacity : ℚ) ∧
     (t.num_active_entry : ℚ) / (t.capacity : ℚ) ≤ MAX_LOAD_FACTOR)

/-- Identity hash on naturals, used for concrete evaluations. -/
def natHash : Nat → Nat := fun n => n

/-- The table obtained from the empty table by `insert 1 10` (identity hash). -/
def sampleT1 : HashTable Nat Nat :=
  ⟨[-1, 0, -1, -1, -1, -1, -1, -1], [some ⟨1, 1, 10⟩], 8, 1, 1, 6, 1⟩

/-- The table obtained from `sampleT1` by `insert 2 20`. -/
def sampleT2 : HashTable Nat Nat :=
  ⟨[-1, 0, 1, -1, -1, -1, -1, -1], [some ⟨1, 1, 10⟩, some ⟨2, 2, 20⟩], 8, 2, 2, 6, 1⟩

/-- The table obtained from `sampleT1` by `pop 1`. -/
def sampleT1popped : HashTable Nat Nat :=
  ⟨[-1, -2, -1, -1, -1, -1, -1, -1], [none], 8, 1, 0, 6, 1⟩

/-- The table obtained from `sampleT1` by `resize_to 16`. -/
def sampleT1x16 : HashTable Nat Nat :=
  ⟨[-1, 0, -1, -1, -1, -1, -1, -1, -1, -1, -1, -1, -1, -1, -1, -1],
   [some ⟨1, 1, 10⟩], 16, 1, 1, 11, 2⟩

section ProbeLemmas

theorem probeIdx_zero (cap h : Nat) : probeIdx cap h 0 = h % cap := rfl

theorem probeIdx_succ (cap h i : Nat) :
    probeIdx cap h (i + 1) = (5 * probeIdx cap h i + 1 + h >>> (PERTURB_SHIFT * i)) % cap := rfl

theorem perturb_step (h i : Nat) :
    (h >>> (PERTURB_SHIFT * i)) >>> PERTURB_SHIFT = h >>> (PERTURB_SHIFT * (i + 1)) := by
  rw [Nat.mul_succ, Nat.shiftRight_add]

/-- The perturb loop of the spec walks exactly the closed-form probe sequence. -/
theorem probeLoop_eq_probeFrom (t : HashTable K V) (k : K) (h : Nat) :
    ∀ (fuel i : Nat) (fd : Option Nat),
      probeLoop t k h fuel (probeIdx t.capacity h i) (h >>> (PERTURB_SHIFT * i)) fd =
        probeFrom t k h fuel i fd := by
  intro fuel
  induction fuel with
  | zero => intro i fd; rfl
  | succ n ih =>
    intro i fd
    rw [probeLoop, probeFrom]
    cases hidx : t.indices.get? (probeIdx t.capacity h i) with
    | none => rfl
    | some s =>
      by_cases hU : s = UNVISITED_BIT
      · simp [hU]
      · by_cases hD : s = DELETED_BIT
        · simp only [hU, hD, if_false, if_true, reduceIte]
          rw [← probeIdx_succ, perturb_step, ih]
        · by_cases hneg : s < 0
          · simp [hU, hD, hneg]
          · simp only [hU, hD, hneg, if_false, reduceIte]
            cases hent : t.entries.get? s.toNat with
            | none => rfl
            | some oe =>
              cases oe with
              | none => rfl
              | some e =>
                by_cases hm : e.hash_value = h ∧ e.key = k
                · simp [hm]
                · simp only [hm, if_false, reduceIte]
                  rw [← probeIdx_succ, perturb_step, ih]

theorem probe_eq_probeFrom (fuel : Nat) (t : HashTable K V) (k : K) (h : Nat) :
    probe fuel t k h = probeFrom t k h fuel 0 none := by
  have := probeLoop_eq_probeFrom t k h fuel 0 none
  rwa [probeIdx_zero, Nat.mul_zero, Nat.shiftRight_zero] at this

/-- Characterization of a terminating probe that hits: the returned slot is a
step of the probe sequence, that step is a genuine hit, and all earlier steps
continue. -/
theorem probeFrom_found_char (t : HashTable K V) (k : K) (h : Nat) :
    ∀ (fuel i : Nat) (fd : Option Nat) (s p : Nat),
      probeFrom t k h fuel i fd = some (.found s p) →
      (∀ j, j < i → probeCont t k h j) →
      ∃ m, i ≤ m ∧ s = probeIdx t.capacity h m ∧ probeHit t k h m p ∧
        ∀ j, j < m → probeCont t k h j := by
  intro fuel
  induction fuel with
  | zero => intro i fd s p hrun; simp [probeFrom] at hrun
  | succ n ih =>
    intro i fd s p hrun hcont
    rw [probeFrom] at hrun
    cases hidx : t.indices.get? (probeIdx t.capacity h i) with
    | none => rw [hidx] at hrun; exact absurd hrun (by simp)
    | some sv =>
      rw [hidx] at hrun
      by_cases hU : sv = UNVISITED_BIT
      · simp [hU] at hrun
      · by_cases hD : sv = DELETED_BIT
        · simp only [hU, hD, if_false, if_true, reduceIte] at hrun
          have hcont' : ∀ j, j < i + 1 → probeCont t k h j := by
            intro j hj
            rcases Nat.lt_succ_iff_lt_or_eq.mp hj with hj' | hj'
            · exact hcont j hj'
            · subst hj'; exact Or.inl (by rw [hD] at hidx; exact hidx)
          obtain ⟨m, hm1, hm2⟩ := ih (i + 1) _ s p hrun hcont'
          exact ⟨m, Nat.le_of_succ_le hm1, hm2⟩
        · by_cases hneg : sv < 0
          · simp [hU, hD, hneg] at hrun
          · simp only [hU, hD, hneg, if_false, reduceIte] at hrun
            have hsv : Int.ofNat sv.toNat = sv := Int.toNat_of_nonneg (not_lt.mp hneg)
            cases hent : t.entries.get? sv.toNat with
            | none => rw [hent] at hrun; exact absurd hrun (by simp)
            | some oe =>
              rw [hent] at hrun
              cases oe with
              | none => exact absurd hrun (by simp)
              | some e =>
                by_cases hm : e.hash_value = h ∧ e.key = k
                · simp only [hm, if_true, reduceIte] at hrun
                  obtain ⟨hs, hp⟩ := hrun
                  refine ⟨i, le_refl i, rfl, ⟨e, ?_, ?_, hm.1, hm.2⟩, hcont⟩
                  · rw [hsv]; exact hidx
                  · exact hent
                · simp only [hm, if_false, reduceIte] at hrun
                  have hcont' : ∀ j, j < i + 1 → probeCont t k h j := by
                    intro j hj
                    rcases Nat.lt_succ_iff_lt_or_eq.mp hj with hj' | hj'
                    · exact hcont j hj'
                    · subst hj'
                      exact Or.inr ⟨sv.toNat, e, by rw [hsv]; exact hidx, hent, hm⟩
                  obtain ⟨m, hm1, hm2⟩ := ih (i + 1) _ s p hrun hcont'
                  exact ⟨m, Nat.le_of_succ_le hm1, hm2⟩

theorem deleted_ne_unvisited : ((DELETED_BIT : Int) = UNVISITED_BIT) = False := by
  simp [DELETED_BIT, UNVISITED_BIT]

theorem ofNat_ne_unvisited (p : Nat) : ¬(Int.ofNat p = UNVISITED_BIT) := by
  rw [Int.ofNat_eq_natCast]
  show ¬((p : Int) = -1)
  omega

theorem ofNat_ne_deleted (p : Nat) : ¬(Int.ofNat p = DELETED_BIT) := by
  rw [Int.ofNat_eq_natCast]
  show ¬((p : Int) = -2)
  omega

theorem ofNat_not_neg (p : Nat) : ¬((Int.ofNat p : Int) < 0) := by
  rw [Int.ofNat_eq_natCast]
  omega

theorem toNat_ofNat (p : Nat) : (Int.ofNat p).toNat = p := rfl

/-- Characterization of a terminating probe that misses: the returned
insertion slot is a step of the probe sequence, it held `UNVISITED` or
`DELETED`, and all steps before it continue. -/
theorem probeFrom_vacant_char (t : HashTable K V) (k : K) (h : Nat) :
    ∀ (fuel i : Nat) (fd : Option Nat) (w : Nat),
      probeFrom t k h fuel i fd = some (.vacant w) →
      (∀ j, j < i → probeCont t k h j) →
      (∀ w0, fd = some w0 → ∃ d, d < i ∧ w0 = probeIdx t.capacity h d ∧
        t.indices.get? w0 = some DELETED_BIT) →
      ∃ d, w = probeIdx t.capacity h d ∧
        (t.indices.get? w = some UNVISITED_BIT ∨ t.indices.get? w = some DELETED_BIT) ∧
        ∀ j, j < d → probeCont t k h j := by
  intro fuel
  induction fuel with
  | zero => intro i fd w hrun; simp [probeFrom] at hrun
  | succ n ih =>
    intro i fd w hrun hcont hfd
    rw [probeFrom] at hrun
    cases hidx : t.indices.get? (probeIdx t.capacity h i) with
    | none => rw [hidx] at hrun; exact absurd hrun (by simp)
    | some sv =>
      rw [hidx] at hrun
      by_cases hU : sv = UNVISITED_BIT
      · rw [hU] at hidx
        simp only [hU, if_true, reduceIte] at hrun
        obtain ⟨hw⟩ := hrun
        cases fd with
        | none =>
          refine ⟨i, by simp, ?_, hcont⟩
          simp only [Option.getD_none]
          left; exact hidx
        | some w0 =>
          obtain ⟨d, hd1, hd2, hd3⟩ := hfd w0 rfl
          refine ⟨d, by simpa using hd2, ?_, fun j hj => hcont j (lt_trans hj hd1)⟩
          simp only [Option.getD_some]
          right; exact hd3
      · by_cases hD : sv = DELETED_BIT
        · rw [hD] at hidx
          simp only [hU, hD, deleted_ne_unvisited, if_false, if_true, reduceIte] at hrun
          have hcont' : ∀ j, j < i + 1 → probeCont t k h j := by
            intro j hj
            rcases Nat.lt_succ_iff_lt_or_eq.mp hj with hj' | hj'
            · exact hcont j hj'
            · subst hj'; exact Or.inl hidx
          have hfd' : ∀ w0, (some (fd.getD (probeIdx t.capacity h i)) : Option Nat) = some w0 →
              ∃ d, d < i + 1 ∧ w0 = probeIdx t.capacity h d ∧
                t.indices.get? w0 = some DELETED_BIT := by
            intro w0 hw0
            simp only [Option.some_inj] at hw0
            cases fd with
            | none =>
              simp only [Option.getD_none] at hw0
              exact ⟨i, Nat.lt_succ_self i, hw0.symm, hw0 ▸ hidx⟩
            | some w1 =>
              simp only [Option.getD_some] at hw0
              obtain ⟨d, hd1, hd2, hd3⟩ := hfd w1 rfl
              exact ⟨d, lt_trans hd1 (Nat.lt_succ_self i), hw0 ▸ hd2, hw0 ▸ hd3⟩
          exact ih (i + 1) _ w hrun hcont' hfd'
        · by_cases hneg : sv < 0
          · simp [hU, hD, hneg] at hrun
          · simp only [hU, hD, hneg, if_false, reduceIte] at hrun
            have hsv : Int.ofNat sv.toNat = sv := Int.toNat_of_nonneg (not_lt.mp hneg)
            cases hent : t.entries.get? sv.toNat with
            | none => rw [hent] at hrun; exact absurd hrun (by simp)
            | some oe =>
              rw [hent] at hrun
              cases oe with
              | none => exact absurd hrun (by simp)
              | some e =>
                by_cases hm : e.hash_value = h ∧ e.key = k
                · simp [hm] at hrun
                · simp only [hm, if_false, reduceIte] at hrun
                  have hcont' : ∀ j, j < i + 1 → probeCont t k h j := by
                    intro j hj
                    rcases Nat.lt_succ_iff_lt_or_eq.mp hj with hj' | hj'
                    · exact hcont j hj'
                    · subst hj'
                      exact Or.inr ⟨sv.toNat, e, by rw [hsv]; exact hidx, hent, hm⟩
                  have hfd' : ∀ w0, fd = some w0 →
                      ∃ d, d < i + 1 ∧ w0 = probeIdx t.capacity h d ∧
                        t.indices.get? w0 = some DELETED_BIT := by
                    intro w0 hw0
                    obtain ⟨d, hd1, hd2, hd3⟩ := hfd w0 hw0
                    exact ⟨d, lt_trans hd1 (Nat.lt_succ_self i), hd2, hd3⟩
                  exact ih (i + 1) _ w hrun hcont' hfd'

/-- Completeness: if the probe walk for `(k, h)` first stops at step `m`
with a hit at `p`, then the probe with enough fuel returns that hit. -/
theorem probeFrom_complete (t : HashTable K V) (k : K) (h m p : Nat)
    (hfind : FindsAt t k h m p) :
    ∀ (fuel i : Nat) (fd : Option Nat), i ≤ m → m - i < fuel →
      probeFrom t k h fuel i fd = some (.found (probeIdx t.capacity h m) p) := by
  intro fuel
  induction fuel with
  | zero => intro i fd him hfuel; omega
  | succ n ih =>
    intro i fd him hfuel
    rcases Nat.lt_or_ge i m with hlt | hge
    · have hc := hfind.2 i hlt
      rw [probeFrom]
      rcases hc with hdel | ⟨p', e', hslot, hent, hnm⟩
      · rw [hdel]
        have : ¬(DELETED_BIT = UNVISITED_BIT) := by decide
        simp only [this, if_false, if_true, reduceIte]
        exact ih (i + 1) _ (by omega) (by omega)
      · rw [hslot]
        have h1 := ofNat_ne_unvisited p'
        have h2 := ofNat_ne_deleted p'
        have h3 := ofNat_not_neg p'
        simp only [h1, h2, h3, if_false, reduceIte]
        rw [toNat_ofNat, hent]
        simp only [hnm, if_false, reduceIte]
        exact ih (i + 1) _ (by omega) (by omega)
    · have him' : i = m := le_antisymm him hge
      subst him'
      obtain ⟨e, hslot, hent, hh, hk⟩ := hfind.1
      rw [probeFrom, hslot]
      have h1 := ofNat_ne_unvisited p
      have h2 := ofNat_ne_deleted p
      have h3 := ofNat_not_neg p
      simp only [h1, h2, h3, if_false, reduceIte]
      rw [toNat_ofNat, hent]
      simp [hh, hk]

/-- Probe results are stable under adding fuel. -/
theorem probeFrom_mono (t : HashTable K V) (k : K) (h : Nat) :
    ∀ (fuel fuel' i : Nat) (fd : Option Nat) (o : ProbeOutcome),
      probeFrom t k h fuel i fd = some o → fuel ≤ fuel' →
      probeFrom t k h fuel' i fd = some o := by
  intro fuel
  induction fuel with
  | zero => intro fuel' i fd o hrun; simp [probeFrom] at hrun
  | succ n ih =>
    intro fuel' i fd o hrun hle
    cases fuel' with
    | zero => omega
    | succ n' =>
      rw [probeFrom] at hrun ⊢
      cases hidx : t.indices.get? (probeIdx t.capacity h i) with
      | none => rw [hidx] at hrun; exact absurd hrun (by simp)
      | some sv =>
        rw [hidx] at hrun
        by_cases hU : sv = UNVISITED_BIT
        · simp only [hU, if_true, reduceIte] at hrun ⊢; exact hrun
        · by_cases hD : sv = DELETED_BIT
          · simp only [hU, hD, if_false, if_true, reduceIte] at hrun ⊢
            exact ih n' (i + 1) _ o hrun (by omega)
          · by_cases hneg : sv < 0
            · simp [hU, hD, hneg] at hrun
            · simp only [hU, hD, hneg, if_false, reduceIte] at hrun ⊢
              cases hent : t.entries.get? sv.toNat with
              | none => rw [hent] at hrun; exact absurd hrun (by simp)
              | some oe =>
                rw [hent] at hrun
                cases oe with
                | none => exact absurd hrun (by simp)
                | some e =>
                  by_cases hm : e.hash_value = h ∧ e.key = k
                  · simp only [hm, if_true, reduceIte] at hrun ⊢; exact hrun
                  · simp only [hm, if_false, reduceIte] at hrun ⊢
                    exact ih n' (i + 1) _ o hrun (by omega)

/-- Probe-level wrapper of `probeFrom_found_char`. -/
theorem probe_found_char {fuel : Nat} {t : HashTable K V} {k : K} {h s p : Nat}
    (hrun : probe fuel t k h = some (.found s p)) :
    ∃ m, s = probeIdx t.capacity h m ∧ FindsAt t k h m p := by
  rw [probe_eq_probeFrom] at hrun
  obtain ⟨m, _, hs, hhit, hcont⟩ :=
    probeFrom_found_char t k h fuel 0 none s p hrun (by omega)
  exact ⟨m, hs, hhit, hcont⟩

/-- Probe-level wrapper of `probeFrom_vacant_char`. -/
theorem probe_vacant_char {fuel : Nat} {t : HashTable K V} {k : K} {h w : Nat}
    (hrun : probe fuel t k h = some (.vacant w)) :
    ∃ d, w = probeIdx t.capacity h d ∧
      (t.indices.get? w = some UNVISITED_BIT ∨ t.indices.get? w = some DELETED_BIT) ∧
      ∀ j, j < d → probeCont t k h j := by
  rw [probe_eq_probeFrom] at hrun
  exact probeFrom_vacant_char t k h fuel 0 none w hrun (by omega) (by simp)

/-- Probe-level completeness: enough fuel finds a findable key. -/
theorem probe_complete {t : HashTable K V} {k : K} {h m p : Nat}
    (hfind : FindsAt t k h m p) {fuel : Nat} (hfuel : m < fuel) :
    probe fuel t k h = some (.found (probeIdx t.capacity h m) p) := by
  rw [probe_eq_probeFrom]
  exact probeFrom_complete t k h m p hfind fuel 0 none (by omega) (by omega)

/-- Determinism: a terminating probe for a findable key reports that hit. -/
theorem probe_found_of_findsAt {fuel : Nat} {t : HashTable K V} {k : K} {h : Nat}
    {o : ProbeOutcome} (hrun : probe fuel t k h = some o) {m p : Nat}
    (hfind : FindsAt t k h m p) : o = .found (probeIdx t.capacity h m) p := by
  rw [probe_eq_probeFrom] at hrun
  have h1 := probeFrom_mono t k h fuel (max fuel (m + 1)) 0 none o hrun (le_max_left _ _)
  have h2 := probeFrom_complete t k h m p hfind (max fuel (m + 1)) 0 none (by omega)
    (by omega)
  rw [h1] at h2
  exact Option.some_inj.mp h2

end ProbeLemmas

section ListLemmas

variable {α : Type}

theorem lt_of_get?_some {l : List α} {n : Nat} {a : α} (h : l.get? n = some a) :
    n < l.length := by
  by_contra hc
  rw [List.get?_eq_none.mpr (le_of_not_lt hc)] at h
  exact absurd h (by simp)

theorem get?_set_self {l : List α} {n : Nat} (a : α) (h : n < l.length) :
    (l.set n a).get? n = some a := by
  rw [List.get?_set_eq, List.get?_eq_get h]
  rfl

/-- Surgical decomposition: overwriting position `p` (which holds a live
element `e`) of an option-list splits its `filterMap id` into the part
before `e`, and the part after, with `e` replaced by the new content. -/
theorem filterMap_id_set :
    ∀ (l : List (Option α)) (p : Nat) (e : α) (x : Option α),
      l.get? p = some (some e) →
      ∃ l1 l2, l.filterMap id = l1 ++ e :: l2 ∧
        (l.set p x).filterMap id = l1 ++ (x.toList ++ l2) := by
  intro l
  induction l with
  | nil => intro p e x h; simp at h
  | cons o rest ih =>
    intro p e x h
    cases p with
    | zero =>
      simp only [List.get?] at h
      obtain ⟨rfl⟩ := Option.some_inj.mp h
      refine ⟨[], rest.filterMap id, by simp, ?_⟩
      cases x with
      | none => simp [List.set]
      | some y => simp [List.set]
    | succ q =>
      simp only [List.get?] at h
      obtain ⟨l1, l2, h1, h2⟩ := ih q e x h
      cases o with
      | none =>
        refine ⟨l1, l2, ?_, ?_⟩
        · simpa using h1
        · simpa [List.set] using h2
      | some y =>
        refine ⟨y :: l1, l2, ?_, ?_⟩
        · simpa using h1
        · simpa [List.set] using h2

end ListLemmas

section StabilityLemmas

/-- Fields unchanged by `insertFreshAt`. -/
theorem insertFreshAt_capacity (t : HashTable K V) (e : Entry K V) (w : Nat) :
    (insertFreshAt t e w).capacity = t.capacity := rfl

/-- Slots other than `w` are unchanged by `insertFreshAt`. -/
theorem insertFreshAt_get_idx_ne (t : HashTable K V) (e : Entry K V) {w c : Nat}
    (hne : w ≠ c) : (insertFreshAt t e w).indices.get? c = t.indices.get? c :=
  List.get?_set_ne _ _ hne

/-- Slot `w` holds the fresh position after `insertFreshAt` (if in range). -/
theorem insertFreshAt_get_idx_eq (t : HashTable K V) (e : Entry K V) {w : Nat}
    (hw : w < t.indices.length) :
    (insertFreshAt t e w).indices.get? w = some (Int.ofNat t.num_entry) :=
  get?_set_self _ hw

/-- Existing entry-store positions are unchanged by `insertFreshAt`. -/
theorem insertFreshAt_get_ent (t : HashTable K V) (e : Entry K V) (w : Nat) {p : Nat}
    (hp : p < t.entries.length) :
    (insertFreshAt t e w).entries.get? p = t.entries.get? p :=
  List.get?_append hp

/-- The fresh entry sits at position `num_entry` after `insertFreshAt`. -/
theorem insertFreshAt_get_ent_new (t : HashTable K V) (e : Entry K V) (w : Nat)
    (hlen : t.entries.length = t.num_entry) :
    (insertFreshAt t e w).entries.get? t.num_entry = some (some e) := by
  have := List.get?_concat_length t.entries (some e)
  rw [hlen] at this
  exact this

/-- A continuing probe step survives `insertFreshAt` at a sentinel slot, for
any key different from the inserted one. -/
theorem insertFreshAt_probeCont {t : HashTable K V} {e : Entry K V} {w : Nat} {k : K}
    (hw : t.indices.get? w = some UNVISITED_BIT ∨ t.indices.get? w = some DELETED_BIT)
    (hlen : t.entries.length = t.num_entry)
    (hne : e.key ≠ k) {h j : Nat} (hc : probeCont t k h j) :
    probeCont (insertFreshAt t e w) k h j := by
  unfold probeCont
  rw [insertFreshAt_capacity]
  by_cases hwj : w = probeIdx t.capacity h j
  · rcases hc with hdel | ⟨p, e0, hslot, hent, hnm⟩
    · rw [← hwj] at hdel
      refine Or.inr ⟨t.num_entry, e, ?_, ?_, ?_⟩
      · rw [← hwj]
        exact insertFreshAt_get_idx_eq t e (lt_of_get?_some hdel)
      · exact insertFreshAt_get_ent_new t e w hlen
      · exact fun hcon => hne hcon.2
    · rw [← hwj] at hslot
      rcases hw with hw | hw <;> rw [hw] at hslot
      · exact absurd (Option.some_inj.mp hslot).symm (ofNat_ne_unvisited p)
      · exact absurd (Option.some_inj.mp hslot).symm (ofNat_ne_deleted p)
  · rcases hc with hdel | ⟨p, e0, hslot, hent, hnm⟩
    · exact Or.inl (by rw [insertFreshAt_get_idx_ne t e hwj]; exact hdel)
    · exact Or.inr ⟨p, e0, by rw [insertFreshAt_get_idx_ne t e hwj]; exact hslot,
        by rw [insertFreshAt_get_ent t e w (lt_of_get?_some hent)]; exact hent, hnm⟩

/-- A hit survives `insertFreshAt` at a sentinel slot. -/
theorem insertFreshAt_probeHit {t : HashTable K V} {e : Entry K V} {w : Nat} {k : K}
    (hw : t.indices.get? w = some UNVISITED_BIT ∨ t.indices.get? w = some DELETED_BIT)
    {h m p : Nat} (hhit : probeHit t k h m p) :
    probeHit (insertFreshAt t e w) k h m p := by
  obtain ⟨e0, hslot, hent, hh, hk⟩ := hhit
  have hwm : w ≠ probeIdx t.capacity h m := by
    intro hcon
    rw [← hcon] at hslot
    rcases hw with hw | hw <;> rw [hw] at hslot
    · exact (ofNat_ne_unvisited p) (Option.some_inj.mp hslot).symm
    · exact (ofNat_ne_deleted p) (Option.some_inj.mp hslot).symm
  refine ⟨e0, ?_, ?_, hh, hk⟩
  · show (insertFreshAt t e w).indices.get? (probeIdx t.capacity h m) = _
    rw [insertFreshAt_get_idx_ne t e hwm]
    exact hslot
  · rw [insertFreshAt_get_ent t e w (lt_of_get?_some hent)]
    exact hent

/-- Findability of the previously live keys survives `insertFreshAt`. -/
theorem insertFreshAt_findsAt_old {t : HashTable K V} {e : Entry K V} {w : Nat} {k : K}
    (hw : t.indices.get? w = some UNVISITED_BIT ∨ t.indices.get? w = some DELETED_BIT)
    (hlen : t.entries.length = t.num_entry)
    (hne : e.key ≠ k) {h m p : Nat} (hf : FindsAt t k h m p) :
    FindsAt (insertFreshAt t e w) k h m p :=
  ⟨insertFreshAt_probeHit hw hf.1,
   fun j hj => insertFreshAt_probeCont hw hlen hne (hf.2 j hj)⟩

/-- The freshly inserted entry is findable after `insertFreshAt`, provided
the insertion slot came from a vacant probe outcome for its key and hash. -/
theorem insertFreshAt_findsAt_new {t : HashTable K V} {e : Entry K V} {w d : Nat}
    (hwd : w = probeIdx t.capacity e.hash_value d)
    (hw : t.indices.get? w = some UNVISITED_BIT ∨ t.indices.get? w = some DELETED_BIT)
    (hcont : ∀ j, j < d → probeCont t e.key e.hash_value j)
    (hlen : t.entries.length = t.num_entry) :
    ∃ m, FindsAt (insertFreshAt t e w) e.key e.hash_value m t.num_entry := by
  have hex : ∃ j, probeIdx t.capacity e.hash_value j = w := ⟨d, hwd.symm⟩
  classical
  refine ⟨Nat.find hex, ?_, ?_⟩
  · have hfw : probeIdx t.capacity e.hash_value (Nat.find hex) = w := Nat.find_spec hex
    refine ⟨e, ?_, ?_, rfl, rfl⟩
    · show (insertFreshAt t e w).indices.get? (probeIdx (insertFreshAt t e w).capacity
        e.hash_value (Nat.find hex)) = _
      rw [insertFreshAt_capacity, hfw]
      rcases hw with hw | hw
      · exact insertFreshAt_get_idx_eq t e (lt_of_get?_some hw)
      · exact insertFreshAt_get_idx_eq t e (lt_of_get?_some hw)
    · exact insertFreshAt_get_ent_new t e w hlen
  · intro j hj
    have hjd : j < d := by
      rcases Nat.lt_or_ge j d with hlt | hge
      · exact hlt
      · exfalso
        have hmin : Nat.find hex ≤ d := Nat.find_min' hex hwd.symm
        omega
    have hjne : probeIdx t.capacity e.hash_value j ≠ w :=
      fun hcon => Nat.find_min hex hj hcon
    have hc := hcont j hjd
    unfold probeCont at hc ⊢
    rw [insertFreshAt_capacity]
    rcases hc with hdel | ⟨p, e0, hslot, hent, hnm⟩
    · exact Or.inl (by
        rw [insertFreshAt_get_idx_ne t e (fun hcon => hjne hcon.symm)]
        exact hdel)
    · exact Or.inr ⟨p, e0,
        by rw [insertFreshAt_get_idx_ne t e (fun hcon => hjne hcon.symm)]; exact hslot,
        by rw [insertFreshAt_get_ent t e w (lt_of_get?_some hent)]; exact hent, hnm⟩

/-- `setValue` changes only the value of the entry at `p`. -/
theorem setValue_get {l : List (Option (Entry K V))} {p : Nat} {e : Entry K V}
    (hp : l.get? p = some (some e)) (v : V) :
    (setValue l p v).get? p = some (some { e with value := v }) := by
  rw [setValue, hp]
  exact get?_set_self _ (lt_of_get?_some hp)

theorem setValue_get_ne {l : List (Option (Entry K V))} {p : Nat} (v : V) {q : Nat}
    (hne : p ≠ q) : (setValue l p v).get? q = l.get? q := by
  rw [setValue]
  cases hx : l.get? p with
  | none => rfl
  | some oe =>
    cases oe with
    | none => rfl
    | some e => exact List.get?_set_ne _ _ hne

theorem setValue_length (l : List (Option (Entry K V))) (p : Nat) (v : V) :
    (setValue l p v).length = l.length := by
  rw [setValue]
  cases hx : l.get? p with
  | none => rfl
  | some oe =>
    cases oe with
    | none => rfl
    | some e => simp

/-- Key and cached hash of any position are unchanged by `setValue`, hence
every continuing step and every hit survives an in-place value overwrite. -/
theorem setValue_probeCont {t : HashTable K V} {p : Nat} {e : Entry K V}
    (hp : t.entries.get? p = some (some e)) (v : V) {k : K} {h j : Nat}
    (hc : probeCont t k h j) :
    probeCont { t with entries := setValue t.entries p v } k h j := by
  unfold probeCont at hc ⊢
  rcases hc with hdel | ⟨q, e0, hslot, hent, hnm⟩
  · exact Or.inl hdel
  · by_cases hpq : p = q
    · subst hpq
      rw [hp] at hent
      obtain ⟨rfl⟩ := Option.some_inj.mp hent
      exact Or.inr ⟨p, { e with value := v }, hslot, setValue_get hp v, hnm⟩
    · exact Or.inr ⟨q, e0, hslot, by rw [setValue_get_ne v hpq]; exact hent, hnm⟩

theorem setValue_findsAt {t : HashTable K V} {p : Nat} {e : Entry K V}
    (hp : t.entries.get? p = some (some e)) (v : V) {k : K} {h m q : Nat}
    (hf : FindsAt t k h m q) :
    FindsAt { t with entries := setValue t.entries p v } k h m q := by
  obtain ⟨⟨e0, hslot, hent, hh, hk⟩, hcont⟩ := hf
  refine ⟨?_, fun j hj => setValue_probeCont hp v (hcont j hj)⟩
  by_cases hpq : p = q
  · subst hpq
    rw [hp] at hent
    obtain ⟨rfl⟩ := Option.some_inj.mp hent
    exact ⟨{ e with value := v }, hslot, setValue_get hp v, hh, hk⟩
  · exact ⟨e0, hslot, by rw [setValue_get_ne v hpq]; exact hent, hh, hk⟩

/-- A continuing probe step survives the removal of entry `p` through slot
`s` (the slot becomes `DELETED`; occupied-slot injectivity rules out other
references to `p`). -/
theorem kill_probeCont {t : HashTable K V} {s p : Nat}
    (hs : t.indices.get? s = some (Int.ofNat p))
    (hinj : ∀ i j q, t.indices.get? i = some (Int.ofNat q) →
      t.indices.get? j = some (Int.ofNat q) → i = j)
    {k : K} {h j : Nat} (hc : probeCont t k h j) :
    probeCont { t with indices := t.indices.set s DELETED_BIT,
                       entries := t.entries.set p none,
                       num_active_entry := t.num_active_entry - 1 } k h j := by
  unfold probeCont at hc ⊢
  rcases hc with hdel | ⟨q, e0, hslot, hent, hnm⟩
  · have hjs : probeIdx t.capacity h j ≠ s := by
      intro hcon
      rw [hcon, hs] at hdel
      exact (ofNat_ne_deleted p) (Option.some_inj.mp hdel)
    exact Or.inl (by
      show (t.indices.set s DELETED_BIT).get? (probeIdx t.capacity h j) = _
      rw [List.get?_set_ne _ _ (fun hcon => hjs hcon.symm)]
      exact hdel)
  · by_cases hjs : probeIdx t.capacity h j = s
    · have hqp : q = p := by
        rw [hjs, hs] at hslot
        have := Option.some_inj.mp hslot
        exact Int.ofNat.inj this.symm
      subst hqp
      exact Or.inl (by
        show (t.indices.set s DELETED_BIT).get? (probeIdx t.capacity h j) = _
        rw [hjs]
        exact get?_set_self _ (lt_of_get?_some hs))
    · have hqp : q ≠ p := by
        intro hcon
        subst hcon
        exact hjs (hinj _ _ q hslot hs)
      refine Or.inr ⟨q, e0, ?_, ?_, hnm⟩
      · show (t.indices.set s DELETED_BIT).get? (probeIdx t.capacity h j) = _
        rw [List.get?_set_ne _ _ (fun hcon => hjs hcon.symm)]
        exact hslot
      · show (t.entries.set p none).get? q = _
        rw [List.get?_set_ne _ _ (Ne.symm hqp)]
        exact hent

/-- Findability of the other live keys survives the removal of entry `p`. -/
theorem kill_findsAt {t : HashTable K V} {s p : Nat}
    (hs : t.indices.get? s = some (Int.ofNat p))
    (hinj : ∀ i j q, t.indices.get? i = some (Int.ofNat q) →
      t.indices.get? j = some (Int.ofNat q) → i = j)
    {k : K} {h m p' : Nat} (hne : p' ≠ p) (hf : FindsAt t k h m p') :
    FindsAt { t with indices := t.indices.set s DELETED_BIT,
                     entries := t.entries.set p none,
                     num_active_entry := t.num_active_entry - 1 } k h m p' := by
  obtain ⟨⟨e0, hslot, hent, hh, hk⟩, hcont⟩ := hf
  refine ⟨⟨e0, ?_, ?_, hh, hk⟩, fun j hj => kill_probeCont hs hinj (hcont j hj)⟩
  · have hms : probeIdx t.capacity h m ≠ s := by
      intro hcon
      rw [hcon, hs] at hslot
      exact hne (Int.ofNat.inj (Option.some_inj.mp hslot)).symm
    show (t.indices.set s DELETED_BIT).get? (probeIdx t.capacity h m) = _
    rw [List.get?_set_ne _ _ (fun hcon => hms hcon.symm)]
    exact hslot
  · show (t.entries.set p none).get? p' = _
    rw [List.get?_set_ne _ _ (fun hcon => hne hcon.symm)]
    exact hent

end StabilityLemmas

section WFLemmas

variable {hash : K → Nat}

theorem exists_pos_of_mem_liveEntries {t : HashTable K V} {e : Entry K V}
    (he : e ∈ liveEntries t) : ∃ p, t.entries.get? p = some (some e) := by
  rw [liveEntries, List.mem_filterMap] at he
  obtain ⟨o, ho, hoe⟩ := he
  obtain ⟨p, hp⟩ := List.mem_iff_get?.mp ho
  exact ⟨p, by rw [hp]; exact congrArg some hoe⟩

theorem mem_liveEntries_of_get? {t : HashTable K V} {e : Entry K V} {p : Nat}
    (hp : t.entries.get? p = some (some e)) : e ∈ liveEntries t := by
  rw [liveEntries, List.mem_filterMap]
  exact ⟨some e, List.get?_mem hp, rfl⟩

theorem mem_liveKeys_iff {t : HashTable K V} {k : K} :
    k ∈ liveKeys t ↔ ∃ e ∈ liveEntries t, e.key = k := by
  rw [liveKeys, List.mem_map]

/-- In a well-formed table, a live key is findable by probing with its hash. -/
theorem findsAt_of_mem_liveKeys {t : HashTable K V} (hwf : WF hash t) {k : K}
    (hk : k ∈ liveKeys t) : ∃ m p, FindsAt t k (hash k) m p := by
  obtain ⟨e, he, rfl⟩ := mem_liveKeys_iff.mp hk
  obtain ⟨p, hp⟩ := exists_pos_of_mem_liveEntries he
  obtain ⟨m, hm⟩ := hwf.findable p e hp
  rw [hwf.hash_ok e he] at hm
  exact ⟨m, p, hm⟩

/-- A vacant probe outcome means the key is absent (in a well-formed table). -/
theorem not_mem_liveKeys_of_vacant {t : HashTable K V} (hwf : WF hash t)
    {fuel : Nat} {k : K} {w : Nat}
    (hrun : probe fuel t k (hash k) = some (.vacant w)) : k ∉ liveKeys t := by
  intro hk
  obtain ⟨m, p, hm⟩ := findsAt_of_mem_liveKeys hwf hk
  have := probe_found_of_findsAt hrun hm
  simp at this

/-- A found probe outcome exhibits a live entry with the queried key. -/
theorem mem_liveKeys_of_found {t : HashTable K V} {fuel : Nat} {k : K} {h s p : Nat}
    (hrun : probe fuel t k h = some (.found s p)) :
    ∃ e, t.entries.get? p = some (some e) ∧ e.hash_value = h ∧ e.key = k := by
  obtain ⟨m, _, ⟨e, _, hent, hh, hk⟩, _⟩ := probe_found_char hrun
  exact ⟨e, hent, hh, hk⟩

theorem wf_freshTable {c : Nat} (hc : MIN_CAPACITY ≤ c) :
    WF hash (freshTable K V c) := by
  refine ⟨hc, by simp [freshTable], rfl, rfl, rfl, rfl, ?_, ?_, ?_, ?_, ?_⟩
  · intro i s hs
    left
    have := List.get?_mem hs
    exact List.eq_of_mem_replicate this
  · intro i j p hi hj
    have := List.get?_mem hi
    have heq := List.eq_of_mem_replicate this
    exact absurd heq (ofNat_ne_unvisited p)
  · intro e he
    simp [liveEntries, freshTable] at he
  · simp [liveKeys, liveEntries, freshTable]
  · intro p e hp
    simp [freshTable] at hp

theorem wf_emptyTable : WF hash (HashTable.emptyTable K V) :=
  wf_freshTable (le_refl _)

theorem liveEntries_insertFreshAt (t : HashTable K V) (e : Entry K V) (w : Nat) :
    liveEntries (insertFreshAt t e w) = liveEntries t ++ [e] := by
  simp [liveEntries, insertFreshAt]

theorem liveKeys_insertFreshAt (t : HashTable K V) (e : Entry K V) (w : Nat) :
    liveKeys (insertFreshAt t e w) = liveKeys t ++ [e.key] := by
  simp [liveKeys, liveEntries_insertFreshAt]

/-- Well-formedness is preserved by a fresh insertion at a vacant slot
reported by the probe. -/
theorem insertFreshAt_wf {t : HashTable K V} (hwf : WF hash t) {e : Entry K V}
    {w d : Nat}
    (hhash : e.hash_value = hash e.key)
    (hwd : w = probeIdx t.capacity e.hash_value d)
    (hw : t.indices.get? w = some UNVISITED_BIT ∨ t.indices.get? w = some DELETED_BIT)
    (hcont : ∀ j, j < d → probeCont t e.key e.hash_value j)
    (hknot : e.key ∉ liveKeys t) :
    WF hash (insertFreshAt t e w) := by
  have hwlen : w < t.indices.length := by
    rcases hw with hw | hw <;> exact lt_of_get?_some hw
  refine ⟨hwf.cap_min, ?_, ?_, ?_, hwf.exp_thr, hwf.shr_thr, ?_, ?_, ?_, ?_, ?_⟩
  · show (t.indices.set w _).length = t.capacity
    rw [List.length_set]
    exact hwf.idx_len
  · show (t.entries ++ [some e]).length = t.num_entry + 1
    rw [List.length_append, hwf.ent_len]
    rfl
  · rw [liveEntries_insertFreshAt]
    show t.num_active_entry + 1 = _
    rw [List.length_append, hwf.active_eq]
    rfl
  · intro i s hs
    by_cases hiw : i = w
    · subst hiw
      rw [insertFreshAt_get_idx_eq t e hwlen] at hs
      obtain rfl := Option.some_inj.mp hs.symm
      right; right
      exact ⟨t.num_entry, e, rfl, insertFreshAt_get_ent_new t e _ hwf.ent_len⟩
    · rw [insertFreshAt_get_idx_ne t e (fun hcon => hiw hcon.symm)] at hs
      rcases hwf.slots i s hs with hU | hD | ⟨p, e0, rfl, hent⟩
      · exact Or.inl hU
      · exact Or.inr (Or.inl hD)
      · exact Or.inr (Or.inr ⟨p, e0, rfl,
          by rw [insertFreshAt_get_ent t e w (lt_of_get?_some hent)]; exact hent⟩)
  · intro i j p hi hj
    by_cases hiw : i = w <;> by_cases hjw : j = w
    · rw [hiw, hjw]
    · exfalso
      subst hiw
      rw [insertFreshAt_get_idx_eq t e hwlen] at hi
      have hp : p = t.num_entry := (Int.ofNat.inj (Option.some_inj.mp hi)).symm
      subst hp
      rw [insertFreshAt_get_idx_ne t e (fun hcon => hjw hcon.symm)] at hj
      rcases hwf.slots j _ hj with hU | hD | ⟨q, e0, hq, hent⟩
      · exact (ofNat_ne_unvisited _) hU
      · exact (ofNat_ne_deleted _) hD
      · have : q = t.num_entry := (Int.ofNat.inj hq.symm)
        subst this
        have : t.entries.get? t.num_entry = none :=
          List.get?_eq_none.mpr (le_of_eq hwf.ent_len)
        rw [this] at hent
        exact absurd hent (by simp)
    · exfalso
      subst hjw
      rw [insertFreshAt_get_idx_eq t e hwlen] at hj
      have hp : p = t.num_entry := (Int.ofNat.inj (Option.some_inj.mp hj)).symm
      subst hp
      rw [insertFreshAt_get_idx_ne t e (fun hcon => hiw hcon.symm)] at hi
      rcases hwf.slots i _ hi with hU | hD | ⟨q, e0, hq, hent⟩
      · exact (ofNat_ne_unvisited _) hU
      · exact (ofNat_ne_deleted _) hD
      · have : q = t.num_entry := (Int.ofNat.inj hq.symm)
        subst this
        have : t.entries.get? t.num_entry = none :=
          List.get?_eq_none.mpr (le_of_eq hwf.ent_len)
        rw [this] at hent
        exact absurd hent (by simp)
    · rw [insertFreshAt_get_idx_ne t e (fun hcon => hiw hcon.symm)] at hi
      rw [insertFreshAt_get_idx_ne t e (fun hcon => hjw hcon.symm)] at hj
      exact hwf.inj i j p hi hj
  · intro e0 he0
    rw [liveEntries_insertFreshAt] at he0
    rcases List.mem_append.mp he0 with hold | hnew
    · exact hwf.hash_ok e0 hold
    · obtain rfl := List.mem_singleton.mp hnew
      exact hhash
  · rw [liveKeys_insertFreshAt]
    rw [List.nodup_append]
    exact ⟨hwf.keys_nodup, List.nodup_singleton _,
      fun a ha hb => hknot (by rwa [List.mem_singleton.mp hb] at ha)⟩
  · intro p e0 hp
    rcases Nat.lt_trichotomy p t.entries.length with hlt | heq | hgt
    · rw [insertFreshAt_get_ent t e w hlt] at hp
      obtain ⟨m, hm⟩ := hwf.findable p e0 hp
      have hne : e.key ≠ e0.key := fun hcon =>
        hknot (mem_liveKeys_iff.mpr ⟨e0, mem_liveEntries_of_get? hp, hcon.symm⟩)
      exact ⟨m, insertFreshAt_findsAt_old hw hwf.ent_len hne hm⟩
    · have hp' : p = t.num_entry := by rw [← hwf.ent_len]; exact heq
      subst hp'
      rw [insertFreshAt_get_ent_new t e w hwf.ent_len] at hp
      obtain rfl := Option.some_inj.mp (Option.some_inj.mp hp)
      obtain ⟨m, hm⟩ := insertFreshAt_findsAt_new hwd hw hcont hwf.ent_len
      exact ⟨m, hm⟩
    · exfalso
      have : (t.entries ++ [some e]).length ≤ p := by
        rw [List.length_append]
        simpa using hgt
      have hnone : (insertFreshAt t e w).entries.get? p = none :=
        List.get?_eq_none.mpr this
      rw [hnone] at hp
      exact absurd hp (by simp)

theorem setValue_eq_set {l : List (Option (Entry K V))} {p : Nat} {e : Entry K V}
    (hp : l.get? p = some (some e)) (v : V) :
    setValue l p v = l.set p (some { e with value := v }) := by
  rw [setValue, hp]

/-- Decomposition of the live entries across an in-place overwrite. -/
theorem liveEntries_overwrite {t : HashTable K V} {p : Nat} {e : Entry K V}
    (hp : t.entries.get? p = some (some e)) (v : V) :
    ∃ l1 l2, liveEntries t = l1 ++ e :: l2 ∧
      liveEntries { t with entries := setValue t.entries p v } =
        l1 ++ { e with value := v } :: l2 := by
  obtain ⟨l1, l2, h1, h2⟩ :=
    filterMap_id_set t.entries p e (some { e with value := v }) hp
  refine ⟨l1, l2, h1, ?_⟩
  show (setValue t.entries p v).filterMap id = _
  rw [setValue_eq_set hp v, h2]
  rfl

theorem liveKeys_overwrite {t : HashTable K V} {p : Nat} {e : Entry K V}
    (hp : t.entries.get? p = some (some e)) (v : V) :
    liveKeys { t with entries := setValue t.entries p v } = liveKeys t := by
  obtain ⟨l1, l2, h1, h2⟩ := liveEntries_overwrite hp v
  rw [liveKeys, liveKeys, h1, h2]
  simp

/-- Well-formedness is preserved by an in-place value overwrite. -/
theorem overwrite_wf {t : HashTable K V} (hwf : WF hash t) {p : Nat} {e : Entry K V}
    (hp : t.entries.get? p = some (some e)) (v : V) :
    WF hash { t with entries := setValue t.entries p v } := by
  obtain ⟨l1, l2, hdec1, hdec2⟩ := liveEntries_overwrite hp v
  refine ⟨hwf.cap_min, hwf.idx_len, ?_, ?_, hwf.exp_thr, hwf.shr_thr, ?_, hwf.inj,
    ?_, ?_, ?_⟩
  · show (setValue t.entries p v).length = t.num_entry
    rw [setValue_length]
    exact hwf.ent_len
  · rw [hdec2]
    rw [hwf.active_eq, hdec1]
    simp
  · intro i s hs
    rcases hwf.slots i s hs with hU | hD | ⟨q, e1, rfl, hent⟩
    · exact Or.inl hU
    · exact Or.inr (Or.inl hD)
    · right; right
      by_cases hpq : p = q
      · subst hpq
        exact ⟨p, { e with value := v }, rfl, setValue_get hp v⟩
      · exact ⟨q, e1, rfl, by rw [setValue_get_ne v hpq]; exact hent⟩
  · intro e1 he1
    rw [hdec2] at he1
    have hmem_old : ∀ x ∈ l1 ++ e :: l2, x.hash_value = hash x.key := by
      rw [← hdec1]
      exact hwf.hash_ok
    rcases List.mem_append.mp he1 with h1 | h2
    · exact hmem_old e1 (List.mem_append.mpr (Or.inl h1))
    · rcases List.mem_cons.mp h2 with heq | h3
      · subst heq
        exact hmem_old e (List.mem_append.mpr (Or.inr (List.mem_cons_self e l2)))
      · exact hmem_old e1 (List.mem_append.mpr (Or.inr (List.mem_cons_of_mem e h3)))
  · rw [liveKeys_overwrite hp v]
    exact hwf.keys_nodup
  · intro q e1 hq
    by_cases hpq : p = q
    · subst hpq
      rw [setValue_get hp v] at hq
      obtain rfl := Option.some_inj.mp (Option.some_inj.mp hq)
      obtain ⟨m, hm⟩ := hwf.findable p e hp
      exact ⟨m, setValue_findsAt hp v hm⟩
    · rw [setValue_get_ne v hpq] at hq
      obtain ⟨m, hm⟩ := hwf.findable q e1 hq
      exact ⟨m, setValue_findsAt hp v hm⟩

/-- In a table with pairwise distinct live keys, the stored value of a live
entry's key is that entry's value. -/
theorem find?_key_eq {l : List (Entry K V)} (hnodup : (l.map Entry.key).Nodup)
    {e : Entry K V} (he : e ∈ l) :
    (l.find? fun x => decide (x.key = e.key)) = some e := by
  induction l with
  | nil => simp at he
  | cons a l ih =>
    rcases List.mem_cons.mp he with rfl | he'
    · simp [List.find?]
    · have hnodup' : (a.key :: l.map Entry.key).Nodup := by simpa using hnodup
      have hnd := List.nodup_cons.mp hnodup'
      have hane : ¬(a.key = e.key) := by
        intro hcon
        exact hnd.1 (by
          rw [hcon]
          exact List.mem_map.mpr ⟨e, he', rfl⟩)
      have hfalse : (decide (a.key = e.key)) = false := decide_eq_false hane
      rw [List.find?, hfalse]
      exact ih hnd.2 he'

theorem storedValue_eq {t : HashTable K V} (hnodup : (liveKeys t).Nodup)
    {p : Nat} {e : Entry K V} (hp : t.entries.get? p = some (some e)) :
    storedValue t e.key = some e.value := by
  rw [storedValue, find?_key_eq hnodup (mem_liveEntries_of_get? hp)]
  rfl

section ReindexLemmas

/-- A successful rebuild appends exactly the given entries, in order, to the
accumulator's live entries, and its counters grow together. -/
theorem reindex_spec_pure :
    ∀ (es : List (Entry K V)) (acc : HashTable K V) (fuel : Nat) (t' : HashTable K V),
      reindex fuel acc es = some t' →
      liveEntries t' = liveEntries acc ++ es ∧
      t'.capacity = acc.capacity ∧
      t'.num_entry = acc.num_entry + es.length ∧
      t'.num_active_entry = acc.num_active_entry + es.length ∧
      t'.expand_threshold = acc.expand_threshold ∧
      t'.shrink_threshold = acc.shrink_threshold := by
  intro es
  induction es with
  | nil =>
    intro acc fuel t' hrun
    rw [reindex] at hrun
    obtain rfl := Option.some_inj.mp hrun
    simp
  | cons e es ih =>
    intro acc fuel t' hrun
    rw [reindex] at hrun
    cases hpr : probe fuel acc e.key e.hash_value with
    | none => rw [hpr] at hrun; exact absurd hrun (by simp)
    | some o =>
      rw [hpr] at hrun
      cases o with
      | found s p => exact absurd hrun (by simp)
      | vacant w =>
        obtain ⟨h1, h2, h3, h4, h5, h6⟩ := ih (insertFreshAt acc e w) fuel t' hrun
        rw [liveEntries_insertFreshAt] at h1
        refine ⟨by rw [h1]; simp, by rw [h2]; rfl, ?_, ?_, h5, h6⟩
        · rw [h3]
          show acc.num_entry + 1 + es.length = acc.num_entry + (e :: es).length
          rw [List.length_cons]
          omega
        · rw [h4]
          show acc.num_active_entry + 1 + es.length =
            acc.num_active_entry + (e :: es).length
          rw [List.length_cons]
          omega

/-- A successful rebuild of well-formed input preserves well-formedness. -/
theorem reindex_wf :
    ∀ (es : List (Entry K V)) (acc : HashTable K V) (fuel : Nat) (t' : HashTable K V),
      reindex fuel acc es = some t' →
      WF hash acc →
      (∀ e ∈ es, e.hash_value = hash e.key) →
      (liveKeys acc ++ es.map Entry.key).Nodup →
      WF hash t' := by
  intro es
  induction es with
  | nil =>
    intro acc fuel t' hrun hwf _ _
    rw [reindex] at hrun
    obtain rfl := Option.some_inj.mp hrun
    exact hwf
  | cons e es ih =>
    intro acc fuel t' hrun hwf hhash hnodup
    rw [reindex] at hrun
    cases hpr : probe fuel acc e.key e.hash_value with
    | none => rw [hpr] at hrun; exact absurd hrun (by simp)
    | some o =>
      rw [hpr] at hrun
      cases o with
      | found s p => exact absurd hrun (by simp)
      | vacant w =>
        obtain ⟨d, hwd, hw, hcont⟩ := probe_vacant_char hpr
        have hknot : e.key ∉ liveKeys acc := by
          intro hcon
          have : ¬(List.Disjoint (liveKeys acc) ((e :: es).map Entry.key)) := by
            intro hdisj
            exact hdisj hcon (by simp)
          exact this (List.disjoint_of_nodup_append hnodup)
        have hwf' : WF hash (insertFreshAt acc e w) :=
          insertFreshAt_wf hwf (hhash e (by simp)) hwd hw hcont hknot
        refine ih (insertFreshAt acc e w) fuel t' hrun hwf'
          (fun x hx => hhash x (by simp [hx])) ?_
        rw [liveKeys_insertFreshAt]
        have : liveKeys acc ++ e.key :: es.map Entry.key =
            (liveKeys acc ++ [e.key]) ++ es.map Entry.key := by simp
        rw [← this]
        simpa using hnodup

end ReindexLemmas

theorem liveEntries_freshTable (c : Nat) : liveEntries (freshTable K V c) = [] := rfl

theorem liveKeys_of_liveEntries_eq {t t' : HashTable K V}
    (h : liveEntries t' = liveEntries t) : liveKeys t' = liveKeys t := by
  rw [liveKeys, liveKeys, h]

/-- Full specification of a successful `resize_to`: capacity is the clamped
request, the live entries (hence iteration order) are unchanged, tombstones
are reclaimed, and well-formedness is preserved. -/
theorem resize_to_spec {t : HashTable K V} (hwf : WF hash t) {fuel new_cap : Nat}
    {t' : HashTable K V} (hrun : resize_to fuel t new_cap = some t') :
    WF hash t' ∧ liveEntries t' = liveEntries t ∧
    t'.capacity = max MIN_CAPACITY new_cap ∧
    t'.num_entry = t'.num_active_entry ∧
    t'.num_active_entry = t.num_active_entry := by
  rw [resize_to] at hrun
  obtain ⟨h1, h2, h3, h4, _, _⟩ :=
    reindex_spec_pure (liveEntries t) (freshTable K V (max MIN_CAPACITY new_cap)) fuel t' hrun
  have hwf' : WF hash t' := by
    refine reindex_wf (liveEntries t) _ fuel t' hrun
      (wf_freshTable (le_max_left _ _)) hwf.hash_ok ?_
    show (liveKeys (freshTable K V _) ++ liveKeys t).Nodup
    have : liveKeys (freshTable K V (max MIN_CAPACITY new_cap)) = [] := rfl
    rw [this, List.nil_append]
    exact hwf.keys_nodup
  have hle : liveEntries t' = liveEntries t := by
    rw [h1, liveEntries_freshTable, List.nil_append]
  refine ⟨hwf', hle, by rw [h2]; rfl, ?_, ?_⟩
  · rw [h3, h4]
    show 0 + (liveEntries t).length = 0 + (liveEntries t).length
    rfl
  · rw [h4, hwf.active_eq]
    show 0 + (liveEntries t).length = (liveEntries t).length
    omega

/-- Iteration order is untouched by any successful resize (no
well-formedness needed: the rebuild appends the old live entries in order). -/
theorem resize_to_display {fuel new_cap : Nat} {t t' : HashTable K V}
    (hrun : resize_to fuel t new_cap = some t') : display t' = display t := by
  rw [resize_to] at hrun
  obtain ⟨h1, _, _, _, _, _⟩ :=
    reindex_spec_pure (liveEntries t) (freshTable K V (max MIN_CAPACITY new_cap)) fuel t' hrun
  rw [display, display, h1, liveEntries_freshTable, List.nil_append]

/-- Specification of a successful `ensure_capacity`. -/
theorem ensure_capacity_spec {t : HashTable K V} (hwf : WF hash t) {fuel : Nat}
    {t' : HashTable K V} (hrun : ensure_capacity fuel t = some t') :
    WF hash t' ∧ liveEntries t' = liveEntries t ∧
    t'.num_active_entry = t.num_active_entry ∧
    ((t' = t ∧ t.num_active_entry < t.expand_threshold) ∨
     (t.expand_threshold ≤ t.num_active_entry ∧
      t'.capacity = max MIN_CAPACITY (t.capacity * 2) ∧
      t'.num_entry = t'.num_active_entry)) := by
  rw [ensure_capacity] at hrun
  by_cases hcond : t.expand_threshold ≤ t.num_active_entry
  · rw [if_pos hcond] at hrun
    obtain ⟨hwf', hle, hcap, hne, hna⟩ := resize_to_spec hwf hrun
    exact ⟨hwf', hle, hna, Or.inr ⟨hcond, hcap, hne⟩⟩
  · rw [if_neg hcond] at hrun
    obtain rfl := Option.some_inj.mp hrun
    exact ⟨hwf, rfl, rfl, Or.inl ⟨rfl, lt_of_not_le hcond⟩⟩

theorem toFinset_concat (l : List K) (a : K) :
    (l ++ [a]).toFinset = insert a l.toFinset := by
  ext x
  simp [or_comm]

/-- Full specification of a successful `insert`: the table stays
well-formed, the key is afterwards findable with the new value stored, and
the set of live keys gains exactly `k`. -/
theorem insert_spec {t : HashTable K V} (hwf : WF hash t) {fuel : Nat} {k : K} {v : V}
    {t' : HashTable K V} (hrun : t.insert hash fuel k v = some t') :
    WF hash t' ∧
    (∃ m p, FindsAt t' k (hash k) m p ∧
      ∃ e, t'.entries.get? p = some (some e) ∧
        e.hash_value = hash k ∧ e.key = k ∧ e.value = v) ∧
    (liveKeys t').toFinset = insert k (liveKeys t).toFinset := by
  rw [HashTable.insert] at hrun
  cases hpr : probe fuel t k (hash k) with
  | none => rw [hpr] at hrun; exact absurd hrun (by simp)
  | some o =>
    rw [hpr] at hrun
    cases o with
    | found s p =>
      obtain rfl := Option.some_inj.mp hrun
      obtain ⟨m, hs, hfind⟩ := probe_found_char hpr
      obtain ⟨⟨e, hslot, hent, hh, hk⟩, hcont⟩ := hfind
      refine ⟨overwrite_wf hwf hent v, ?_, ?_⟩
      · refine ⟨m, p, setValue_findsAt hent v ⟨⟨e, hslot, hent, hh, hk⟩, hcont⟩, ?_⟩
        exact ⟨{ e with value := v }, setValue_get hent v, hh, hk, rfl⟩
      · rw [liveKeys_overwrite hent v]
        have hkmem : k ∈ liveKeys t :=
          mem_liveKeys_iff.mpr ⟨e, mem_liveEntries_of_get? hent, hk⟩
        rw [Finset.insert_eq_self.mpr (List.mem_toFinset.mpr hkmem)]
    | vacant w =>
      obtain ⟨d, hwd, hw, hcont⟩ := probe_vacant_char hpr
      have hknot : k ∉ liveKeys t := not_mem_liveKeys_of_vacant hwf hpr
      have hwf1 : WF hash (insertFreshAt t (⟨hash k, k, v⟩ : Entry K V) w) :=
        insertFreshAt_wf hwf rfl hwd hw hcont hknot
      obtain ⟨hwf', hle, hna, _⟩ := ensure_capacity_spec hwf1 hrun
      rw [liveEntries_insertFreshAt] at hle
      refine ⟨hwf', ?_, ?_⟩
      · have hmem : (⟨hash k, k, v⟩ : Entry K V) ∈ liveEntries t' := by
          rw [hle]
          simp
        obtain ⟨p, hp⟩ := exists_pos_of_mem_liveEntries hmem
        obtain ⟨m, hm⟩ := hwf'.findable p _ hp
        exact ⟨m, p, hm, ⟨hash k, k, v⟩, hp, rfl, rfl, rfl⟩
      · have hkeys : liveKeys t' = liveKeys t ++ [k] := by
          rw [liveKeys, hle, List.map_append]
          rfl
        rw [hkeys, toFinset_concat]

/-- Decomposition of the live entries across a removal. -/
theorem liveEntries_kill {t : HashTable K V} (sl : Nat) {p : Nat} {e : Entry K V}
    (hp : t.entries.get? p = some (some e)) :
    ∃ l1 l2, liveEntries t = l1 ++ e :: l2 ∧
      liveEntries { t with indices := t.indices.set sl DELETED_BIT,
                           entries := t.entries.set p none,
                           num_active_entry := t.num_active_entry - 1 } = l1 ++ l2 := by
  obtain ⟨l1, l2, h1, h2⟩ := filterMap_id_set t.entries p e none hp
  exact ⟨l1, l2, h1, by
    show (t.entries.set p none).filterMap id = _
    rw [h2]
    rfl⟩

theorem nodup_middle_notmem {l1 l2 : List K} {a : K}
    (h : (l1 ++ a :: l2).Nodup) : a ∉ l1 ++ l2 := by
  intro hmem
  rcases List.mem_append.mp hmem with h1 | h2
  · have := List.disjoint_of_nodup_append h
    exact this h1 (by simp)
  · have hnd : (a :: l2).Nodup := (List.nodup_append.mp h).2.1
    exact (List.nodup_cons.mp hnd).1 h2

theorem toFinset_middle_erase {l1 l2 : List K} {a : K}
    (h : (l1 ++ a :: l2).Nodup) :
    (l1 ++ l2).toFinset = (l1 ++ a :: l2).toFinset.erase a := by
  have hnotmem := nodup_middle_notmem h
  ext x
  constructor
  · intro hx
    have hxmem := List.mem_toFinset.mp hx
    refine Finset.mem_erase.mpr ⟨?_, ?_⟩
    · intro hcon
      subst hcon
      exact hnotmem hxmem
    · rcases List.mem_append.mp hxmem with h1 | h2
      · exact List.mem_toFinset.mpr (List.mem_append.mpr (Or.inl h1))
      · exact List.mem_toFinset.mpr (List.mem_append.mpr (Or.inr (List.mem_cons_of_mem a h2)))
  · intro hx
    obtain ⟨hne, hxmem⟩ := Finset.mem_erase.mp hx
    have := List.mem_toFinset.mp hxmem
    rcases List.mem_append.mp this with h1 | h2
    · exact List.mem_toFinset.mpr (List.mem_append.mpr (Or.inl h1))
    · rcases List.mem_cons.mp h2 with rfl | h3
      · exact absurd rfl hne
      · exact List.mem_toFinset.mpr (List.mem_append.mpr (Or.inr h3))

/-- Well-formedness is preserved by removing the entry at `p` through the
occupied index slot `sl`. -/
theorem kill_wf {t : HashTable K V} (hwf : WF hash t) {sl p : Nat} {e : Entry K V}
    (hs : t.indices.get? sl = some (Int.ofNat p))
    (hp : t.entries.get? p = some (some e)) :
    WF hash { t with indices := t.indices.set sl DELETED_BIT,
                     entries := t.entries.set p none,
                     num_active_entry := t.num_active_entry - 1 } := by
  obtain ⟨l1, l2, hdec1, hdec2⟩ := liveEntries_kill sl hp
  have hsl_len : sl < t.indices.length := lt_of_get?_some hs
  refine ⟨hwf.cap_min, ?_, ?_, ?_, hwf.exp_thr, hwf.shr_thr, ?_, ?_, ?_, ?_, ?_⟩
  · show (t.indices.set sl DELETED_BIT).length = t.capacity
    rw [List.length_set]
    exact hwf.idx_len
  · show (t.entries.set p none).length = t.num_entry
    rw [List.length_set]
    exact hwf.ent_len
  · rw [hdec2]
    show t.num_active_entry - 1 = _
    rw [hwf.active_eq, hdec1]
    simp
  · intro i s hsi
    by_cases hisl : i = sl
    · subst hisl
      have : (t.indices.set i DELETED_BIT).get? i = some DELETED_BIT :=
        get?_set_self _ hsl_len
      rw [this] at hsi
      exact Or.inr (Or.inl (Option.some_inj.mp hsi.symm))
    · have : (t.indices.set sl DELETED_BIT).get? i = t.indices.get? i :=
        List.get?_set_ne _ _ (fun hcon => hisl hcon.symm)
      rw [this] at hsi
      rcases hwf.slots i s hsi with hU | hD | ⟨q, e1, rfl, hent⟩
      · exact Or.inl hU
      · exact Or.inr (Or.inl hD)
      · have hqp : q ≠ p := by
          intro hcon
          subst hcon
          exact hisl (hwf.inj i sl q hsi hs)
        right; right
        refine ⟨q, e1, rfl, ?_⟩
        show (t.entries.set p none).get? q = _
        rw [List.get?_set_ne _ _ (Ne.symm hqp)]
        exact hent
  · intro i j q hi hj
    have hisl : i ≠ sl := by
      intro hcon
      subst hcon
      rw [get?_set_self _ hsl_len] at hi
      exact (ofNat_ne_deleted q) (Option.some_inj.mp hi).symm
    have hjsl : j ≠ sl := by
      intro hcon
      subst hcon
      rw [get?_set_self _ hsl_len] at hj
      exact (ofNat_ne_deleted q) (Option.some_inj.mp hj).symm
    rw [List.get?_set_ne _ _ (Ne.symm hisl)] at hi
    rw [List.get?_set_ne _ _ (Ne.symm hjsl)] at hj
    exact hwf.inj i j q hi hj
  · intro e1 he1
    rw [hdec2] at he1
    refine hwf.hash_ok e1 ?_
    rw [hdec1]
    rcases List.mem_append.mp he1 with h1 | h2
    · exact List.mem_append.mpr (Or.inl h1)
    · exact List.mem_append.mpr (Or.inr (List.mem_cons_of_mem e h2))
  · show (liveKeys _).Nodup
    rw [liveKeys, hdec2, List.map_append]
    have : (liveKeys t).Nodup := hwf.keys_nodup
    rw [liveKeys, hdec1, List.map_append, List.map_cons] at this
    rcases List.nodup_append.mp this with ⟨hn1, hn2, hdisj⟩
    rw [List.nodup_append]
    exact ⟨hn1, (List.nodup_cons.mp hn2).2,
      fun a ha hb => hdisj ha (List.mem_cons_of_mem _ hb)⟩
  · intro q e1 hq
    have hqp : q ≠ p := by
      intro hcon
      subst hcon
      rw [show ((t.entries.set q none).get? q = some none) from
        get?_set_self _ (lt_of_get?_some hp)] at hq
      exact absurd (Option.some_inj.mp hq) (by simp)
    have hq' : t.entries.get? q = some (some e1) := by
      have : (t.entries.set p none).get? q = t.entries.get? q :=
        List.get?_set_ne _ _ (Ne.symm hqp)
      rw [← this]
      exact hq
    obtain ⟨m, hm⟩ := hwf.findable q e1 hq'
    exact ⟨m, kill_findsAt hs hwf.inj hqp hm⟩

/-- Full specification of a terminating `pop`. -/
theorem pop_spec {t : HashTable K V} (hwf : WF hash t) {fuel : Nat} {k : K}
    {r : Except TableError V} {t' : HashTable K V}
    (hrun : t.pop hash fuel k = some (r, t')) :
    (∀ er, r = .error er → er = .KeyNotFound ∧ t' = t ∧ k ∉ liveKeys t) ∧
    (∀ v, r = .ok v → storedValue t k = some v ∧ WF hash t' ∧ k ∈ liveKeys t ∧
      k ∉ liveKeys t' ∧
      (liveKeys t').toFinset = (liveKeys t).toFinset.erase k) := by
  rw [HashTable.pop] at hrun
  cases hpr : probe fuel t k (hash k) with
  | none => rw [hpr] at hrun; exact absurd hrun (by simp)
  | some o =>
    rw [hpr] at hrun
    cases o with
    | vacant w =>
      have hpq := Option.some_inj.mp hrun
      injection hpq with h1 h2
      subst h1
      subst h2
      constructor
      · intro er her
        injection her with h3
        exact ⟨h3.symm, rfl, not_mem_liveKeys_of_vacant hwf hpr⟩
      · intro v hv
        exact absurd hv (by simp)
    | found s p =>
      obtain ⟨m, hsm, hfind⟩ := probe_found_char hpr
      obtain ⟨⟨e, hslot, hent, hh, hk⟩, hcont⟩ := hfind
      simp only [hent] at hrun
      have hs : t.indices.get? s = some (Int.ofNat p) := by
        rw [hsm]
        exact hslot
      obtain ⟨l1, l2, hdec1, hdec2⟩ := liveEntries_kill s hent
      have hwf1 : WF hash { t with indices := t.indices.set s DELETED_BIT,
                                   entries := t.entries.set p none,
                                   num_active_entry := t.num_active_entry - 1 } :=
        kill_wf hwf hs hent
      have hkeys1 : liveKeys { t with indices := t.indices.set s DELETED_BIT,
                                      entries := t.entries.set p none,
                                      num_active_entry := t.num_active_entry - 1 } =
          l1.map Entry.key ++ l2.map Entry.key := by
        rw [liveKeys, hdec2, List.map_append]
      have hkeyst : liveKeys t = l1.map Entry.key ++ e.key :: l2.map Entry.key := by
        rw [liveKeys, hdec1, List.map_append, List.map_cons]
      have hknotmem : k ∉ l1.map Entry.key ++ l2.map Entry.key := by
        rw [← hk]
        refine nodup_middle_notmem ?_
        rw [← hkeyst]
        exact hwf.keys_nodup
      have hkerase : (l1.map Entry.key ++ l2.map Entry.key).toFinset =
          (liveKeys t).toFinset.erase k := by
        rw [hkeyst, ← hk]
        refine toFinset_middle_erase ?_
        rw [← hkeyst]
        exact hwf.keys_nodup
      have hkmem : k ∈ liveKeys t :=
        mem_liveKeys_iff.mpr ⟨e, mem_liveEntries_of_get? hent, hk⟩
      have hstored : storedValue t k = some e.value := by
        rw [← hk]
        exact storedValue_eq hwf.keys_nodup hent
      by_cases hcond : (t.num_active_entry - 1 ≤ t.shrink_threshold ∧
          MIN_CAPACITY < t.capacity)
      · rw [if_pos hcond] at hrun
        cases hres : resize_to fuel { t with indices := t.indices.set s DELETED_BIT,
                                             entries := t.entries.set p none,
                                             num_active_entry := t.num_active_entry - 1 }
            ((t.capacity) / 2) with
        | none =>
          rw [hres] at hrun
          exact absurd hrun (by simp)
        | some t2 =>
          rw [hres] at hrun
          simp only [Option.map_some', Option.some_inj] at hrun
          injection hrun with h1 h2
          subst h1
          subst h2
          obtain ⟨hwf2, hle2, _, _, _⟩ := resize_to_spec hwf1 hres
          constructor
          · intro er her
            exact absurd her (by simp)
          · intro v hv
            injection hv with h3
            subst h3
            have hlk2 : liveKeys t2 = l1.map Entry.key ++ l2.map Entry.key := by
              rw [liveKeys_of_liveEntries_eq hle2, hkeys1]
            refine ⟨hstored, hwf2, hkmem, ?_, ?_⟩
            · rw [hlk2]; exact hknotmem
            · rw [hlk2]; exact hkerase
      · rw [if_neg hcond] at hrun
        simp only [Option.map_some', Option.some_inj] at hrun
        injection hrun with h1 h2
        subst h1
        subst h2
        constructor
        · intro er her
          exact absurd her (by simp)
        · intro v hv
          injection hv with h3
          subst h3
          refine ⟨hstored, hwf1, hkmem, ?_, ?_⟩
          · rw [hkeys1]; exact hknotmem
          · rw [hkeys1]; exact hkerase

/-- With enough fuel, `get` returns the value of a findable entry. -/
theorem get_complete {t : HashTable K V} {k : K} {m p : Nat} {e : Entry K V}
    (hfind : FindsAt t k (hash k) m p) (hent : t.entries.get? p = some (some e))
    {fuel : Nat} (hfuel : m < fuel) :
    t.get hash fuel k = some (some e.value) := by
  rw [HashTable.get, probe_complete hfind hfuel]
  show some (((t.entries.get? p).bind id).map Entry.value) = some (some e.value)
  rw [hent]
  rfl

/-- With enough fuel, `contains` answers true for a findable key. -/
theorem contains_complete {t : HashTable K V} {k : K} {m p : Nat}
    (hfind : FindsAt t k (hash k) m p) {fuel : Nat} (hfuel : m < fuel) :
    t.contains hash fuel k = some true := by
  rw [HashTable.contains, probe_complete hfind hfuel]
  rfl

/-- With enough fuel, `insert` of a present key takes the overwrite path. -/
theorem insert_overwrite_complete {t : HashTable K V} {k : K} {m p : Nat}
    (hfind : FindsAt t k (hash k) m p) {fuel : Nat} (hfuel : m < fuel) (v : V) :
    t.insert hash fuel k v = some { t with entries := setValue t.entries p v } := by
  rw [HashTable.insert, probe_complete hfind hfuel]

/-- A terminating `contains` can only answer false for an absent key
(regardless of fuel). -/
theorem contains_false_of_not_mem {t : HashTable K V} {k : K}
    (hnot : k ∉ liveKeys t) {fuel : Nat} {b : Bool}
    (hrun : t.contains hash fuel k = some b) : b = false := by
  rw [HashTable.contains] at hrun
  cases hpr : probe fuel t k (hash k) with
  | none => rw [hpr] at hrun; exact absurd hrun (by simp)
  | some o =>
    rw [hpr] at hrun
    cases o with
    | found s p =>
      exfalso
      obtain ⟨e, hent, _, hk⟩ := mem_liveKeys_of_found hpr
      exact hnot (mem_liveKeys_iff.mpr ⟨e, mem_liveEntries_of_get? hent, hk⟩)
    | vacant w =>
      simp only [Option.map_some', Option.some_inj] at hrun
      exact hrun.symm

/-- A terminating `pop` of an absent key fails with `KeyNotFound` and leaves
the table untouched (regardless of fuel). -/
theorem pop_notfound_of_not_mem {t : HashTable K V} {k : K}
    (hnot : k ∉ liveKeys t) {fuel : Nat} {r : Except TableError V} {t'' : HashTable K V}
    (hrun : t.pop hash fuel k = some (r, t'')) :
    r = .error .KeyNotFound ∧ t'' = t := by
  rw [HashTable.pop] at hrun
  cases hpr : probe fuel t k (hash k) with
  | none => rw [hpr] at hrun; exact absurd hrun (by simp)
  | some o =>
    rw [hpr] at hrun
    cases o with
    | found s p =>
      exfalso
      obtain ⟨e, hent, _, hk⟩ := mem_liveKeys_of_found hpr
      exact hnot (mem_liveKeys_iff.mpr ⟨e, mem_liveEntries_of_get? hent, hk⟩)
    | vacant w =>
      have hpq := Option.some_inj.mp hrun
      injection hpq with h1 h2
      exact ⟨h1.symm, h2.symm⟩

theorem size_eq_card {t : HashTable K V} (hwf : WF hash t) :
    t.size = (liveKeys t).toFinset.card := by
  rw [HashTable.size, hwf.active_eq, List.toFinset_card_of_nodup hwf.keys_nodup,
    liveKeys, List.length_map]

/-- Master lemma for operation sequences: a completed run preserves
well-formedness and tracks the abstract key-set semantics. -/
theorem runOps_keys :
    ∀ (ops : List (Op K V)) (t : HashTable K V) (fuel : Nat) (t' : HashTable K V),
      WF hash t → runOps hash fuel t ops = some t' →
      WF hash t' ∧ (liveKeys t').toFinset = opsFold ops (liveKeys t).toFinset := by
  intro ops
  induction ops with
  | nil =>
    intro t fuel t' hwf hrun
    rw [runOps] at hrun
    obtain rfl := Option.some_inj.mp hrun
    exact ⟨hwf, rfl⟩
  | cons op ops ih =>
    intro t fuel t' hwf hrun
    cases op with
    | ins k v =>
      rw [runOps] at hrun
      cases hstep : t.insert hash fuel k v with
      | none => rw [hstep] at hrun; exact absurd hrun (by simp)
      | some t1 =>
        rw [hstep] at hrun
        obtain ⟨hwf1, _, hkeys⟩ := insert_spec hwf hstep
        obtain ⟨hwf', hk'⟩ := ih t1 fuel t' hwf1 hrun
        refine ⟨hwf', ?_⟩
        rw [hk', hkeys]
        rfl
    | del k =>
      rw [runOps] at hrun
      cases hstep : t.pop hash fuel k with
      | none => rw [hstep] at hrun; exact absurd hrun (by simp)
      | some pr =>
        obtain ⟨r, t1⟩ := pr
        rw [hstep] at hrun
        obtain ⟨herr, hok⟩ := pop_spec hwf hstep
        cases r with
        | error er =>
          obtain ⟨_, heq, hknot⟩ := herr er rfl
          rw [heq] at hrun
          obtain ⟨hwf', hk'⟩ := ih t fuel t' hwf hrun
          refine ⟨hwf', ?_⟩
          rw [hk']
          have herase : (liveKeys t).toFinset.erase k = (liveKeys t).toFinset :=
            Finset.erase_eq_of_not_mem (fun hmem => hknot (List.mem_toFinset.mp hmem))
          show opsFold ops _ = opsFold ops ((liveKeys t).toFinset.erase k)
          rw [herase]
        | ok v =>
          obtain ⟨_, hwf1, _, _, hkeys⟩ := hok v rfl
          obtain ⟨hwf', hk'⟩ := ih t1 fuel t' hwf1 hrun
          refine ⟨hwf', ?_⟩
          rw [hk', hkeys]
          rfl
    | qcontains k =>
      rw [runOps] at hrun
      cases hstep : t.contains hash fuel k with
      | none => rw [hstep] at hrun; exact absurd hrun (by simp)
      | some b =>
        rw [hstep] at hrun
        exact ih t fuel t' hwf hrun
    | qget k =>
      rw [runOps] at hrun
      cases hstep : t.get hash fuel k with
      | none => rw [hstep] at hrun; exact absurd hrun (by simp)
      | some b =>
        rw [hstep] at hrun
        exact ih t fuel t' hwf hrun

section LoadLemmas

/-- `insert` preserves the strict load-factor invariant. -/
theorem insert_load {t : HashTable K V} (hwf : WF hash t) (hload : LoadStrict t)
    {fuel : Nat} {k : K} {v : V} {t' : HashTable K V}
    (hrun : t.insert hash fuel k v = some t') : LoadStrict t' := by
  have hc8 : (8 : Nat) ≤ t.capacity := hwf.cap_min
  rw [HashTable.insert] at hrun
  cases hpr : probe fuel t k (hash k) with
  | none => rw [hpr] at hrun; exact absurd hrun (by simp)
  | some o =>
    rw [hpr] at hrun
    cases o with
    | found s p =>
      obtain rfl := Option.some_inj.mp hrun
      exact hload
    | vacant w =>
      have hrun' : ensure_capacity fuel
          (insertFreshAt t (⟨hash k, k, v⟩ : Entry K V) w) = some t' := hrun
      unfold ensure_capacity at hrun'
      by_cases hcond : (insertFreshAt t (⟨hash k, k, v⟩ : Entry K V) w).expand_threshold ≤
          (insertFreshAt t (⟨hash k, k, v⟩ : Entry K V) w).num_active_entry
      · rw [if_pos hcond] at hrun'
        obtain ⟨d, hwd, hw, hcont⟩ := probe_vacant_char hpr
        have hknot := not_mem_liveKeys_of_vacant hwf hpr
        have hwf1 : WF hash (insertFreshAt t (⟨hash k, k, v⟩ : Entry K V) w) :=
          insertFreshAt_wf hwf rfl hwd hw hcont hknot
        obtain ⟨_, _, hcap, _, hna⟩ := resize_to_spec hwf1 hrun'
        have hcap' : t'.capacity = t.capacity * 2 := by
          rw [hcap]
          apply max_eq_right
          show MIN_CAPACITY ≤ t.capacity * 2
          calc MIN_CAPACITY ≤ t.capacity := hwf.cap_min
          _ ≤ t.capacity * 2 := by omega
        have hna' : t'.num_active_entry = t.num_active_entry + 1 := hna
        have hcond' : t.expand_threshold ≤ t.num_active_entry + 1 := hcond
        rw [hwf.exp_thr] at hcond'
        have hupper := hload.2
        constructor
        · intro h8
          rw [hcap', hna']
          omega
        · rw [hcap', hna']
          omega
      · rw [if_neg hcond] at hrun'
        obtain rfl := Option.some_inj.mp hrun'
        have hcond' : ¬(t.expand_threshold ≤ t.num_active_entry + 1) := hcond
        rw [hwf.exp_thr] at hcond'
        have hupper := hload.2
        constructor
        · intro h8
          have h8' : MIN_CAPACITY < t.capacity := h8
          have := hload.1 h8'
          show t.capacity < 6 * (t.num_active_entry + 1)
          omega
        · show 3 * (t.num_active_entry + 1) < 2 * t.capacity
          omega

/-- `pop` preserves the strict load-factor invariant. -/
theorem pop_load {t : HashTable K V} (hwf : WF hash t) (hload : LoadStrict t)
    {fuel : Nat} {k : K} {r : Except TableError V} {t' : HashTable K V}
    (hrun : t.pop hash fuel k = some (r, t')) : LoadStrict t' := by
  have hc8 : (8 : Nat) ≤ t.capacity := hwf.cap_min
  have hM : MIN_CAPACITY = 8 := rfl
  rw [HashTable.pop] at hrun
  cases hpr : probe fuel t k (hash k) with
  | none => rw [hpr] at hrun; exact absurd hrun (by simp)
  | some o =>
    rw [hpr] at hrun
    cases o with
    | vacant w =>
      have hpq := Option.some_inj.mp hrun
      injection hpq with h1 h2
      subst h2
      exact hload
    | found s p =>
      obtain ⟨m, hsm, hfind⟩ := probe_found_char hpr
      obtain ⟨⟨e, hslot, hent, hh, hk⟩, hcont⟩ := hfind
      simp only [hent] at hrun
      have hs : t.indices.get? s = some (Int.ofNat p) := by
        rw [hsm]; exact hslot
      have ha1 : 1 ≤ t.num_active_entry := by
        rw [hwf.active_eq]
        exact List.length_pos_of_mem (mem_liveEntries_of_get? hent)
      by_cases hcond : (t.num_active_entry - 1 ≤ t.shrink_threshold ∧
          MIN_CAPACITY < t.capacity)
      · rw [if_pos hcond] at hrun
        cases hres : resize_to fuel { t with indices := t.indices.set s DELETED_BIT,
                                             entries := t.entries.set p none,
                                             num_active_entry := t.num_active_entry - 1 }
            ((t.capacity) / 2) with
        | none =>
          rw [hres] at hrun
          exact absurd hrun (by simp)
        | some t2 =>
          rw [hres] at hrun
          simp only [Option.map_some', Option.some_inj] at hrun
          injection hrun with h1 h2
          subst h2
          have hwf1 := kill_wf hwf hs hent
          obtain ⟨_, _, hcap, _, hna⟩ := resize_to_spec hwf1 hres
          have hna' : t2.num_active_entry = t.num_active_entry - 1 := hna
          have hshr : t.num_active_entry - 1 ≤ t.capacity / 6 := by
            have := hcond.1
            rwa [hwf.shr_thr] at this
          have h8c : 8 < t.capacity := by rw [← hM]; exact hcond.2
          have hlow := hload.1 hcond.2
          rcases Nat.le_total (t.capacity / 2) MIN_CAPACITY with hle | hge
          · have hcap8 : t2.capacity = MIN_CAPACITY := by
              rw [hcap]
              exact max_eq_left hle
            rw [hM] at hcap8 hle
            constructor
            · intro hcon
              rw [hcap8] at hcon
              omega
            · rw [hcap8, hna']
              omega
          · have hcap2 : t2.capacity = t.capacity / 2 := by
              rw [hcap]
              exact max_eq_right hge
            rw [hM] at hge
            constructor
            · intro hcon
              rw [hcap2] at hcon ⊢
              rw [hna']
              rw [hM] at hcon
              omega
            · rw [hcap2, hna']
              omega
      · rw [if_neg hcond] at hrun
        simp only [Option.map_some', Option.some_inj] at hrun
        injection hrun with h1 h2
        subst h2
        have hcond' : ¬(t.num_active_entry - 1 ≤ t.capacity / 6 ∧ 8 < t.capacity) := by
          rw [← hwf.shr_thr, ← hM]
          exact hcond
        have hupper := hload.2
        constructor
        · intro h8
          have h8' : 8 < t.capacity := by rw [← hM]; exact h8
          have hlow := hload.1 (by rw [hM]; exact h8')
          show t.capacity < 6 * (t.num_active_entry - 1)
          omega
        · show 3 * (t.num_active_entry - 1) < 2 * t.capacity
          omega

/-- The strict invariant implies the spec's load-factor condition. -/
theorem loadOK_of_strict {t : HashTable K V} (hcap : MIN_CAPACITY ≤ t.capacity)
    (h : LoadStrict t) : LoadOK t := by
  rcases Nat.eq_or_lt_of_le hcap with heq | hlt
  · exact Or.inl heq.symm
  · right
    have hc := h.1 hlt
    have hcpos : 0 < t.capacity := by
      have : (8 : Nat) ≤ t.capacity := hcap
      omega
    have hc0 : (0 : ℚ) < (t.capacity : ℚ) := by exact_mod_cast hcpos
    constructor
    · show (1 : ℚ) / 6 ≤ (t.num_active_entry : ℚ) / (t.capacity : ℚ)
      rw [div_le_div_iff (by norm_num) hc0]
      have : (t.capacity : ℚ) < 6 * (t.num_active_entry : ℚ) := by exact_mod_cast hc
      linarith
    · show (t.num_active_entry : ℚ) / (t.capacity : ℚ) ≤ (2 : ℚ) / 3
      rw [div_le_div_iff hc0 (by norm_num)]
      have : 3 * (t.num_active_entry : ℚ) < 2 * (t.capacity : ℚ) := by
        exact_mod_cast h.2
      linarith

end LoadLemmas

/-- A fresh insert (absent key) appends its pair to the end of the display. -/
theorem insert_fresh_display {hash : K → Nat} {t : HashTable K V} (hwf : WF hash t)
    {k : K} (hknot : k ∉ liveKeys t) {fuel : Nat} {v : V} {t' : HashTable K V}
    (hrun : t.insert hash fuel k v = some t') : display t' = display t ++ [(k, v)] := by
  rw [HashTable.insert] at hrun
  cases hpr : probe fuel t k (hash k) with
  | none => rw [hpr] at hrun; exact absurd hrun (by simp)
  | some o =>
    rw [hpr] at hrun
    cases o with
    | found s p =>
      exfalso
      obtain ⟨e, hent, _, hk⟩ := mem_liveKeys_of_found hpr
      exact hknot (mem_liveKeys_iff.mpr ⟨e, mem_liveEntries_of_get? hent, hk⟩)
    | vacant w =>
      obtain ⟨d, hwd, hw, hcont⟩ := probe_vacant_char hpr
      have hwf1 : WF hash (insertFreshAt t (⟨hash k, k, v⟩ : Entry K V) w) :=
        insertFreshAt_wf hwf rfl hwd hw hcont hknot
      obtain ⟨_, hle, _, _⟩ := ensure_capacity_spec hwf1 hrun
      rw [liveEntries_insertFreshAt] at hle
      rw [display, display, hle, List.map_append]
      rfl

end WFLemmas

theorem wf_sampleT1 : WF natHash sampleT1 :=
  (insert_spec wf_emptyTable
    (show (HashTable.emptyTable Nat Nat).insert natHash 16 1 10 = some sampleT1
      from by rfl)).1

theorem loadStrict_sampleT1 : LoadStrict sampleT1 := by
  constructor
  · intro h
    exact absurd h (by decide)
  · decide

/-- C1: for every key `k` and value `v`, a completed `insert(k, v)` followed
immediately by `get(k)` returns (a non-null pointer to) `v`, and
`contains(k)` after that insert returns true. -/
theorem C1_insert_get_roundtrip (hash : K → Nat) (fuel : Nat) (t : HashTable K V)
    (k : K) (v : V) (t' : HashTable K V)
    (hwf : WF hash t) (hrun : t.insert hash fuel k v = some t') :
    ∃ N, ∀ f, N ≤ f →
      t'.get hash f k = some (some v) ∧ t'.contains hash f k = some true := by
  obtain ⟨hwf', ⟨m, p, hfind, e, hent, hh, hk, hv⟩, _⟩ := insert_spec hwf hrun
  refine ⟨m + 1, fun f hf => ⟨?_, ?_⟩⟩
  · have := get_complete hfind hent (lt_of_lt_of_le (Nat.lt_succ_self m) hf)
    rw [this, hv]
  · exact contains_complete hfind (lt_of_lt_of_le (Nat.lt_succ_self m) hf)

theorem C1_witness :
    ∃ N, ∀ f, N ≤ f →
      sampleT1.get natHash f 1 = some (some 10) ∧
      sampleT1.contains natHash f 1 = some true :=
  C1_insert_get_roundtrip natHash 16 (HashTable.emptyTable Nat Nat) 1 10 sampleT1
    wf_emptyTable (by rfl)

/-- C2: a terminating `pop(k)` fails with `KeyNotFound` exactly when `k` is
absent (leaving the table untouched); when `k` is present it returns the
value currently stored for `k`, and afterwards `contains(k)` cannot answer
true and a second terminating `pop(k)` fails with `KeyNotFound`. -/
theorem C2_pop_semantics (hash : K → Nat) (fuel : Nat) (t : HashTable K V) (k : K)
    (r : Except TableError V) (t' : HashTable K V)
    (hwf : WF hash t) (hrun : t.pop hash fuel k = some (r, t')) :
    ((∃ er, r = .error er) ↔ k ∉ liveKeys t) ∧
    (∀ er, r = .error er → er = .KeyNotFound ∧ t' = t) ∧
    (∀ v, r = .ok v → storedValue t k = some v ∧ k ∉ liveKeys t' ∧
      (∀ f b, t'.contains hash f k = some b → b = false) ∧
      (∀ f r2 t'', t'.pop hash f k = some (r2, t'') →
        r2 = .error .KeyNotFound ∧ t'' = t')) := by
  obtain ⟨herr, hok⟩ := pop_spec hwf hrun
  refine ⟨⟨?_, ?_⟩, ?_, ?_⟩
  · rintro ⟨er, rfl⟩
    exact (herr er rfl).2.2
  · intro hnot
    cases r with
    | error er => exact ⟨er, rfl⟩
    | ok v =>
      exfalso
      exact hnot (hok v rfl).2.2.1
  · intro er her
    exact ⟨(herr er her).1, (herr er her).2.1⟩
  · intro v hv
    obtain ⟨hstored, hwf', hkmem, hknot', _⟩ := hok v hv
    refine ⟨hstored, hknot', ?_, ?_⟩
    · intro f b hc
      exact contains_false_of_not_mem hknot' hc
    · intro f r2 t'' hp2
      exact pop_notfound_of_not_mem hknot' hp2

theorem C2_witness :
    ((∃ er, (Except.ok 10 : Except TableError Nat) = .error er) ↔ 1 ∉ liveKeys sampleT1) ∧
    (∀ er, (Except.ok 10 : Except TableError Nat) = .error er →
      er = .KeyNotFound ∧ sampleT1popped = sampleT1) ∧
    (∀ v, (Except.ok 10 : Except TableError Nat) = .ok v →
      storedValue sampleT1 1 = some v ∧ 1 ∉ liveKeys sampleT1popped ∧
      (∀ f b, sampleT1popped.contains natHash f 1 = some b → b = false) ∧
      (∀ f r2 t'', sampleT1popped.pop natHash f 1 = some (r2, t'') →
        r2 = .error .KeyNotFound ∧ t'' = sampleT1popped)) :=
  C2_pop_semantics natHash 16 sampleT1 1 (.ok 10) sampleT1popped wf_sampleT1 (by rfl)

/-- C3: for every completed finite sequence of operations starting from a
fresh table, `size()` equals the number of distinct keys inserted and not
subsequently removed. -/
theorem C3_size_counts_keys (hash : K → Nat) (fuel : Nat) (ops : List (Op K V))
    (t' : HashTable K V)
    (hrun : runOps hash fuel (HashTable.emptyTable K V) ops = some t') :
    t'.size = (opsFold ops ∅).card := by
  obtain ⟨hwf', hk⟩ := runOps_keys ops (HashTable.emptyTable K V) fuel t'
    wf_emptyTable hrun
  rw [size_eq_card hwf', hk]
  rfl

theorem C3_witness : sampleT1.size = (opsFold [Op.ins 1 10] (∅ : Finset Nat)).card :=
  C3_size_counts_keys natHash 16 [Op.ins 1 10] sampleT1 (by rfl)

/-- C4: iteration (the textual dump) enumerates exactly the live pairs in
insertion order: it is unchanged by any successful resize, a fresh insert
appends its pair at the end, and the spec's scenario (insert A, B, C; pop B;
insert D) yields A, C, D. -/
theorem C4_iteration_order :
    (∀ (fuel c : Nat) (t t' : HashTable K V),
      resize_to fuel t c = some t' → display t' = display t) ∧
    (∀ (hash : K → Nat) (t : HashTable K V) (k : K) (fuel : Nat) (v : V)
      (t' : HashTable K V), WF hash t → k ∉ liveKeys t →
      t.insert hash fuel k v = some t' → display t' = display t ++ [(k, v)]) ∧
    ((runOps natHash 64 (HashTable.emptyTable Nat Nat)
        [.ins 1 10, .ins 2 20, .ins 3 30, .del 2, .ins 4 40]).map display =
      some [(1, 10), (3, 30), (4, 40)]) := by
  refine ⟨?_, ?_, ?_⟩
  · intro fuel c t t' hrun
    exact resize_to_display hrun
  · intro hash t k fuel v t' hwf hknot hrun
    exact insert_fresh_display hwf hknot hrun
  · rfl

theorem C4_witness : display sampleT1x16 = display sampleT1 :=
  (@C4_iteration_order Nat Nat _).1 16 16 sampleT1 sampleT1x16 (by rfl)

/-- C5: inserting an already-present key overwrites the stored value in
place: the insert succeeds (with enough fuel), `get` then returns the new
value, and `size()`, `num_entry`, `num_active_entry` and the capacity are
all unchanged. -/
theorem C5_overwrite_in_place (hash : K → Nat) (t : HashTable K V) (k : K) (v2 : V)
    (hwf : WF hash t) (hk : k ∈ liveKeys t) :
    ∃ t' N, (∀ f, N ≤ f →
        t.insert hash f k v2 = some t' ∧ t'.get hash f k = some (some v2)) ∧
      t'.num_entry = t.num_entry ∧ t'.num_active_entry = t.num_active_entry ∧
      t'.size = t.size ∧ t'.capacity = t.capacity := by
  obtain ⟨m, p, hfind⟩ := findsAt_of_mem_liveKeys hwf hk
  obtain ⟨e, hslot, hent, hh, hkk⟩ := hfind.1
  refine ⟨{ t with entries := setValue t.entries p v2 }, m + 1,
    fun f hf => ⟨?_, ?_⟩, rfl, rfl, rfl, rfl⟩
  · exact insert_overwrite_complete hfind (lt_of_lt_of_le (Nat.lt_succ_self m) hf) v2
  · have hfind' : FindsAt { t with entries := setValue t.entries p v2 } k (hash k) m p :=
      setValue_findsAt hent v2 hfind
    have hent' : ({ t with entries := setValue t.entries p v2 } :
        HashTable K V).entries.get? p = some (some { e with value := v2 }) :=
      setValue_get hent v2
    have := get_complete hfind' hent' (lt_of_lt_of_le (Nat.lt_succ_self m) hf)
    rw [this]

theorem C5_witness :
    ∃ (t' : HashTable Nat Nat) (N : Nat), (∀ f, N ≤ f →
        sampleT1.insert natHash f 1 99 = some t' ∧
        t'.get natHash f 1 = some (some 99)) ∧
      t'.num_entry = sampleT1.num_entry ∧
      t'.num_active_entry = sampleT1.num_active_entry ∧
      t'.size = sampleT1.size ∧ t'.capacity = sampleT1.capacity :=
  C5_overwrite_in_place natHash sampleT1 1 99 wf_sampleT1 (by decide)

/-- C6: `contains` and `get` do not mutate the table: in any completed run,
the state after a query is identical (every field) to the state before. -/
theorem C6_queries_pure (hash : K → Nat) (fuel : Nat) (t : HashTable K V) (k : K) :
    (∀ t', runOps hash fuel t [Op.qcontains k] = some t' → t' = t) ∧
    (∀ t', runOps hash fuel t [Op.qget k] = some t' → t' = t) := by
  constructor
  · intro t' hrun
    rw [runOps] at hrun
    cases hstep : t.contains hash fuel k with
    | none => rw [hstep] at hrun; exact absurd hrun (by simp)
    | some b =>
      rw [hstep] at hrun
      rw [runOps] at hrun
      exact (Option.some_inj.mp hrun).symm
  · intro t' hrun
    rw [runOps] at hrun
    cases hstep : t.get hash fuel k with
    | none => rw [hstep] at hrun; exact absurd hrun (by simp)
    | some b =>
      rw [hstep] at hrun
      rw [runOps] at hrun
      exact (Option.some_inj.mp hrun).symm

theorem C6_witness : sampleT1 = sampleT1 :=
  (C6_queries_pure natHash 16 sampleT1 1).1 sampleT1 (by rfl)

/-- C7: from any well-formed state satisfying the load-factor invariant,
after a completed `insert` or `pop` the ratio `num_active_entry / capacity`
lies within `[MIN_LOAD_FACTOR, MAX_LOAD_FACTOR]`, except (transiently) when
the capacity is at `MIN_CAPACITY`; moreover the strict invariant is
maintained. -/
theorem C7_load_factor (hash : K → Nat) (t : HashTable K V)
    (hwf : WF hash t) (hload : LoadStrict t) :
    (∀ (fuel : Nat) (k : K) (v : V) (t' : HashTable K V),
      t.insert hash fuel k v = some t' → LoadStrict t' ∧ LoadOK t') ∧
    (∀ (fuel : Nat) (k : K) (r : Except TableError V) (t' : HashTable K V),
      t.pop hash fuel k = some (r, t') → LoadStrict t' ∧ LoadOK t') := by
  constructor
  · intro fuel k v t' hrun
    have hl' := insert_load hwf hload hrun
    have hwf' := (insert_spec hwf hrun).1
    exact ⟨hl', loadOK_of_strict hwf'.cap_min hl'⟩
  · intro fuel k r t' hrun
    have hl' := pop_load hwf hload hrun
    obtain ⟨herr, hok⟩ := pop_spec hwf hrun
    cases r with
    | error er =>
      obtain ⟨_, rfl, _⟩ := herr er rfl
      exact ⟨hl', loadOK_of_strict hwf.cap_min hl'⟩
    | ok v =>
      obtain ⟨_, hwf', _, _, _⟩ := hok v rfl
      exact ⟨hl', loadOK_of_strict hwf'.cap_min hl'⟩

theorem C7_witness : LoadStrict sampleT2 ∧ LoadOK sampleT2 :=
  (C7_load_factor natHash sampleT1 wf_sampleT1 loadStrict_sampleT1).1
    16 2 20 sampleT2 (by rfl)

/-- C8: `resize_to` clamps the requested capacity to at least
`MIN_CAPACITY = 8`, and after any successful rebuild all tombstones are
reclaimed: `num_entry = num_active_entry`. -/
theorem C8_resize_clamp (fuel : Nat) (t : HashTable K V) (c : Nat)
    (t' : HashTable K V) (hrun : resize_to fuel t c = some t') :
    t'.capacity = max MIN_CAPACITY c ∧ MIN_CAPACITY ≤ t'.capacity ∧
    t'.num_entry = t'.num_active_entry := by
  rw [resize_to] at hrun
  obtain ⟨_, h2, h3, h4, _, _⟩ :=
    reindex_spec_pure (liveEntries t) (freshTable K V (max MIN_CAPACITY c)) fuel t' hrun
  have hcap : t'.capacity = max MIN_CAPACITY c := by rw [h2]; rfl
  refine ⟨hcap, by rw [hcap]; exact le_max_left _ _, ?_⟩
  rw [h3, h4]
  rfl

theorem C8_witness :
    sampleT1.capacity = max MIN_CAPACITY 2 ∧ MIN_CAPACITY ≤ sampleT1.capacity ∧
    sampleT1.num_entry = sampleT1.num_active_entry :=
  C8_resize_clamp 16 sampleT1 2 sampleT1 (by rfl)

/-- C9: the probe sequence used by insert, lookup and removal starts at
`hash mod capacity` and advances by `next = (5*current + 1 + perturb) mod
capacity` with `perturb` initialised to the full hash and right-shifted by
`PERTURB_SHIFT = 5` bits per step: the operations' perturb loop visits
exactly the closed-form sequence, and all four operations probe through it. -/
theorem C9_probe_sequence :
    (∀ cap h : Nat, probeIdx cap h 0 = h % cap) ∧
    (∀ cap h i : Nat, probeIdx cap h (i + 1) =
      (5 * probeIdx cap h i + 1 + h >>> (PERTURB_SHIFT * i)) % cap) ∧
    PERTURB_SHIFT = 5 ∧
    (∀ (fuel : Nat) (t : HashTable K V) (k : K) (h : Nat),
      probe fuel t k h = probeFrom t k h fuel 0 none) ∧
    (∀ (hash : K → Nat) (fuel : Nat) (t : HashTable K V) (k : K),
      t.contains hash fuel k = (probe fuel t k (hash k)).map fun o =>
        match o with
        | .found _ _ => true
        | .vacant _ => false) ∧
    (∀ (hash : K → Nat) (fuel : Nat) (t : HashTable K V) (k : K),
      t.get hash fuel k =
        match probe fuel t k (hash k) with
        | none => none
        | some (.vacant _) => some none
        | some (.found _ p) => some (((t.entries.get? p).bind id).map Entry.value)) ∧
    (∀ (hash : K → Nat) (fuel : Nat) (t : HashTable K V) (k : K) (v : V),
      t.insert hash fuel k v =
        match probe fuel t k (hash k) with
        | none => none
        | some (.found _ p) => some { t with entries := setValue t.entries p v }
        | some (.vacant w) =>
          ensure_capacity fuel (insertFreshAt t ⟨hash k, k, v⟩ w)) ∧
    (∀ (hash : K → Nat) (fuel : Nat) (t : HashTable K V) (k : K),
      (t.pop hash fuel k).isSome →
        (probe fuel t k (hash k)).isSome) := by
  refine ⟨fun _ _ => rfl, fun _ _ _ => rfl, rfl, ?_, fun _ _ _ _ => rfl,
    fun _ _ _ _ => rfl, fun _ _ _ _ _ => rfl, ?_⟩
  · intro fuel t k h
    exact probe_eq_probeFrom fuel t k h
  · intro hash fuel t k hp
    rw [HashTable.pop] at hp
    cases hpr : probe fuel t k (hash k) with
    | none => rw [hpr] at hp; exact absurd hp (by simp)
    | some o => simp

theorem C9_witness : (probe 16 sampleT1 1 (natHash 1)).isSome :=
  (@C9_probe_sequence Nat Nat _).2.2.2.2.2.2.2 natHash 16 sampleT1 1 (by decide)

/-- C10: the sentinels `UNVISITED_BIT = -1` and `DELETED_BIT = -2` are
distinct and negative, valid entry-store positions are non-negative, and in
every well-formed state each index-table slot is unambiguously exactly one
of unvisited, deleted, or occupied at a valid live position. -/
theorem C10_sentinels :
    UNVISITED_BIT = -1 ∧ DELETED_BIT = -2 ∧ UNVISITED_BIT ≠ DELETED_BIT ∧
    UNVISITED_BIT < 0 ∧ DELETED_BIT < 0 ∧
    (∀ (hash : K → Nat) (t : HashTable K V), WF hash t →
      ∀ i s, t.indices.get? i = some s →
        (s = UNVISITED_BIT ∧ ¬s = DELETED_BIT ∧ ¬0 ≤ s) ∨
        (s = DELETED_BIT ∧ ¬s = UNVISITED_BIT ∧ ¬0 ≤ s) ∨
        (0 ≤ s ∧ ¬s = UNVISITED_BIT ∧ ¬s = DELETED_BIT ∧
          ∃ p e, s = Int.ofNat p ∧ t.entries.get? p = some (some e))) := by
  refine ⟨rfl, rfl, by decide, by decide, by decide, ?_⟩
  intro hash t hwf i s hs
  rcases hwf.slots i s hs with hU | hD | ⟨p, e, rfl, hent⟩
  · subst hU
    exact Or.inl ⟨rfl, by decide, by decide⟩
  · subst hD
    exact Or.inr (Or.inl ⟨rfl, by decide, by decide⟩)
  · refine Or.inr (Or.inr ⟨?_, ofNat_ne_unvisited p, ofNat_ne_deleted p, p, e, rfl, hent⟩)
    rw [Int.ofNat_eq_natCast]
    omega

theorem C10_witness :
    ((-1 : Int) = UNVISITED_BIT ∧ ¬(-1 : Int) = DELETED_BIT ∧ ¬(0 : Int) ≤ -1) ∨
    ((-1 : Int) = DELETED_BIT ∧ ¬(-1 : Int) = UNVISITED_BIT ∧ ¬(0 : Int) ≤ -1) ∨
    ((0 : Int) ≤ -1 ∧ ¬(-1 : Int) = UNVISITED_BIT ∧ ¬(-1 : Int) = DELETED_BIT ∧
      ∃ p e, (-1 : Int) = Int.ofNat p ∧
        (HashTable.emptyTable Nat Nat).entries.get? p = some (some e)) :=
  (@C10_sentinels Nat Nat _).2.2.2.2.2 natHash (HashTable.emptyTable Nat Nat)
    wf_emptyTable 0 (-1) (by rfl)

end MyHashtable
